import Mathlib

/-!
Verification of the BigNum arbitrary-precision integer library
(`src/BigNumCalculator.cpp`).

The C++ class `BigNum` stores a sign-magnitude decimal representation:
`digits` is a list of decimal digits, least significant first, and
`is_negative` is the sign flag.  This file gives a shallow embedding of the
class and its operations, and proves (or refutes) the specified properties.

Modelling conventions:
* machine `int` digits become `ℕ` (all reachable digit values are 0–9);
  the one place the C++ relies on signed intermediate values
  (the borrow computation in `operator-`) uses `ℤ` explicitly;
* `throw runtime_error(...)` becomes `Except Err`; operations that cannot
  throw are pure; where the C++ calls a throwing operation with an argument
  that is statically nonzero (e.g. `e / BigNum(2)` inside `powMod`), the
  embedding calls the pure "raw" function that the wrapper `div`/`mod`
  dispatches to after its zero test;
* the C++ recursions whose termination depends on the representation
  invariant (mutual `operator+`/`operator-`, the subtract-loop inside
  `operator/`, `powMod`, `extendedGCD`) take an explicit fuel argument;
  each wrapper passes a fuel that is proved sufficient for every value
  satisfying the representation invariant, so on such values the embedding
  computes exactly what the C++ computes.
-/

namespace BigNumSpec

/-- Sign-magnitude big integer: decimal digits, least significant first,
plus a sign flag.  Mirrors the two data members of the C++ class. -/
structure BigNum where
  digits : List ℕ
  is_negative : Bool
deriving DecidableEq

/-- Numeric value of a least-significant-first decimal digit list. -/
def digitsVal : List ℕ → ℕ
  | [] => 0
  | d :: ds => d + 10 * digitsVal ds

/-- Magnitude of a `BigNum` (value of its digit list). -/
def natMag (x : BigNum) : ℕ := digitsVal x.digits

/-- Signed value of a `BigNum`. -/
def toVal (x : BigNum) : ℤ := if x.is_negative then -(natMag x : ℤ) else (natMag x : ℤ)

/-- Canonical digit lists: non-empty, all digits below 10, and no leading
(most-significant) zero except for the single digit `0`. -/
abbrev CanonDigits (l : List ℕ) : Prop :=
  l ≠ [] ∧ (∀ d ∈ l, d < 10) ∧ (l.getLastD 1 ≠ 0 ∨ l = [0])

/-- The representation invariant of the C++ class: canonical digits and no
negative zero. -/
abbrev Canon (x : BigNum) : Prop :=
  CanonDigits x.digits ∧ (x.digits = [0] → x.is_negative = false)

/-- `removeLeadingZeros` of the C++ class works on the most-significant end
of the list; on the reversed (most-significant-first) list it drops zeros
from the front while more than one digit remains. -/
def stripMS : List ℕ → List ℕ
  | [] => []
  | [d] => [d]
  | d :: ds => if d = 0 then stripMS ds else d :: ds

/-- `BigNum::removeLeadingZeros`: pop most-significant zeros while the list
has more than one digit. -/
def removeLeadingZeros (l : List ℕ) : List ℕ := (stripMS l.reverse).reverse

/-- Common epilogue of the digit-building operators (`+`, `*`, `/`):
`removeLeadingZeros(); if (isZero()) is_negative = false;`. -/
def fixup (neg : Bool) (ds : List ℕ) : BigNum :=
  let ds2 := removeLeadingZeros ds
  ⟨ds2, if ds2 = [0] then false else neg⟩

/-- `BigNum::isZero`: one digit and it is `0`. -/
def isZero (x : BigNum) : Bool := decide (x.digits = [0])

/-- `BigNum::isOne`: non-negative, one digit and it is `1`. -/
def isOne (x : BigNum) : Bool := !x.is_negative && decide (x.digits = [1])

/-- Digit list of a positive natural number (`while (num > 0) push num % 10`). -/
def natDigits : ℕ → List ℕ
  | 0 => []
  | n + 1 => ((n + 1) % 10) :: natDigits ((n + 1) / 10)
decreasing_by exact Nat.div_lt_self (Nat.succ_pos n) (by norm_num)

/-- The `BigNum(long long)` constructor. -/
def ofInt (n : ℤ) : BigNum :=
  if n = 0 then ⟨[0], false⟩ else ⟨natDigits n.natAbs, decide (n < 0)⟩

/-- Unary `operator-`: flip the sign unless the value is zero. -/
def neg (x : BigNum) : BigNum :=
  if isZero x then x else ⟨x.digits, !x.is_negative⟩

/-- The digit loop of `operator<` for equal-length magnitudes: compare from
the most significant digit down; the input lists here are most-significant
first. -/
def ltDigitsMS : List ℕ → List ℕ → Bool
  | x :: xs, y :: ys => if x ≠ y then decide (x < y) else ltDigitsMS xs ys
  | _, _ => false

/-- Fueled `operator<`: signs first; two negatives compare as the negated
values in reverse order (the recursive call in the C++); two non-negative
values compare by digit-count and then digit-by-digit. -/
def ltAux : ℕ → BigNum → BigNum → Bool
  | 0, _, _ => false
  | f + 1, a, b =>
    if a.is_negative ≠ b.is_negative then a.is_negative
    else if a.is_negative then ltAux f (neg b) (neg a)
    else if a.digits.length ≠ b.digits.length then decide (a.digits.length < b.digits.length)
    else ltDigitsMS a.digits.reverse b.digits.reverse

/-- `BigNum::operator<`.  The C++ recursion has depth at most one on values
satisfying the representation invariant, so fuel 2 is enough. -/
def lt (a b : BigNum) : Bool := ltAux 2 a b

/-- `BigNum::operator<=` (`*this < other || *this == other`). -/
def le (a b : BigNum) : Bool := lt a b || decide (a = b)

/-- `BigNum::operator>=` (`!(*this < other)`). -/
def ge (a b : BigNum) : Bool := !(lt a b)

/-- Tail of the magnitude-addition loop of `operator+` once both digit
lists are exhausted: keep pushing `carry % 10` while the carry is nonzero. -/
def carryDigits : ℕ → List ℕ
  | 0 => []
  | c + 1 => ((c + 1) % 10) :: carryDigits ((c + 1) / 10)
decreasing_by exact Nat.div_lt_self (Nat.succ_pos _) (by norm_num)

/-- Magnitude addition with carry (`for (i = 0; i < maxSize || carry; i++)`). -/
def addMag : List ℕ → List ℕ → ℕ → List ℕ
  | [], [], c => carryDigits c
  | [], y :: ys, c => ((y + c) % 10) :: addMag [] ys ((y + c) / 10)
  | x :: xs, [], c => ((x + c) % 10) :: addMag xs [] ((x + c) / 10)
  | x :: xs, y :: ys, c => ((x + y + c) % 10) :: addMag xs ys ((x + y + c) / 10)
termination_by xs ys _ => xs.length + ys.length

/-- Magnitude subtraction with borrow: the loop of `operator-` runs over the
minuend's digits; `diff` is a signed intermediate as in the C++. -/
def subMag : List ℕ → List ℕ → ℕ → List ℕ
  | [], _, _ => []
  | x :: xs, ys, b =>
    let diff : ℤ := (x : ℤ) - (b : ℤ) - (ys.headD 0 : ℤ)
    if diff < 0 then (diff + 10).toNat :: subMag xs ys.tail 1
    else diff.toNat :: subMag xs ys.tail 0

mutual

/-- Fueled `BigNum::operator+`.  Same signs: add magnitudes, keep the sign,
normalize.  Different signs: redirect to subtraction exactly as the C++
(`other - (-*this)` or `*this - (-other)`). -/
def addAux : ℕ → BigNum → BigNum → BigNum
  | 0, _, _ => ⟨[0], false⟩
  | f + 1, a, b =>
    if a.is_negative = b.is_negative then
      fixup a.is_negative (addMag a.digits b.digits 0)
    else if a.is_negative then subAux f b (neg a)
    else subAux f a (neg b)

/-- Fueled `BigNum::operator-`.  Different signs: `*this + (-other)`.
Both negative: `(-other) - (-*this)`.  Both non-negative with
`*this < other`: `-(other - *this)`.  Otherwise digit-wise borrow
subtraction followed by `removeLeadingZeros` (the result sign is the
`false` of the default constructor). -/
def subAux : ℕ → BigNum → BigNum → BigNum
  | 0, _, _ => ⟨[0], false⟩
  | f + 1, a, b =>
    if a.is_negative ≠ b.is_negative then addAux f a (neg b)
    else if a.is_negative then subAux f (neg b) (neg a)
    else if lt a b then neg (subAux f b a)
    else ⟨removeLeadingZeros (subMag a.digits b.digits 0), false⟩

end

/-- `BigNum::operator+`.  The sign-dispatch recursion of the C++ has depth
at most four on values satisfying the representation invariant. -/
def add (a b : BigNum) : BigNum := addAux 9 a b

/-- `BigNum::operator-`. -/
def sub (a b : BigNum) : BigNum := subAux 9 a b

/-- One inner step of schoolbook multiplication, exactly the three C++
statements `digits[i+j] += p; digits[i+j+1] += digits[i+j] / 10;
digits[i+j] %= 10;` on the result buffer. -/
def mulStep (p k : ℕ) (buf : List ℕ) : List ℕ :=
  let b1 := buf.set k (buf.getD k 0 + p)
  let b2 := b1.set (k + 1) (b1.getD (k + 1) 0 + b1.getD k 0 / 10)
  b2.set k (b2.getD k 0 % 10)

/-- The double loop of `operator*` over a result buffer of size
`len(a) + len(b)` initialised to zeros. -/
def mulBuf (as bs : List ℕ) : List ℕ :=
  (List.range as.length).foldl
    (fun buf i =>
      (List.range bs.length).foldl
        (fun buf j => mulStep (as.getD i 0 * bs.getD j 0) (i + j) buf) buf)
    (List.replicate (as.length + bs.length) 0)

/-- `BigNum::operator*`: schoolbook multiplication, sign is the XOR of the
operand signs, then normalize (clearing the sign if the product is zero). -/
def mul (a b : BigNum) : BigNum :=
  fixup (a.is_negative != b.is_negative) (mulBuf a.digits b.digits)

/-- Error conditions raised by the C++ (`throw runtime_error(...)`). -/
inductive Err where
  | divisionByZero
  | noInverse
deriving DecidableEq

/-- The subtract-and-count loop inside `operator/`
(`while (remainder >= div) { remainder = remainder - div; count++; }`).
Fuel 11 is enough whenever `remainder < 11 * div`, which the outer loop
invariant (`remainder < div` before the shift) guarantees. -/
def divStepLoop : ℕ → BigNum → BigNum → ℕ × BigNum
  | 0, r, _ => (0, r)
  | f + 1, r, d =>
    if ge r d then
      let p := divStepLoop f (sub r d) d
      (p.1 + 1, p.2)
    else (0, r)

/-- One iteration of the outer loop of `operator/`: shift the remainder by
one decimal place, add the next dividend digit, extract the next quotient
digit and prepend it (`quotient.digits.insert(begin, count)`). -/
def divFoldStep (d : BigNum) (st : List ℕ × BigNum) (x : ℕ) : List ℕ × BigNum :=
  let r1 := add (mul st.2 (ofInt 10)) (ofInt x)
  let p := divStepLoop 11 r1 d
  (p.1 :: st.1, p.2)

/-- The body of `BigNum::operator/` after the division-by-zero test:
early exits for a zero dividend and for `|a| < |b|`, then long division on
the magnitudes, most significant digit first; the quotient starts as
`BigNum(0)` (digit list `[0]`), and the final sign is the XOR of the
operand signs, cleared if the quotient is zero. -/
def divRaw (a b : BigNum) : BigNum :=
  if isZero a then ofInt 0
  else if lt ⟨a.digits, false⟩ ⟨b.digits, false⟩ then ofInt 0
  else
    fixup (a.is_negative != b.is_negative)
      (a.digits.reverse.foldl (divFoldStep ⟨b.digits, false⟩) ([0], ofInt 0)).1

/-- `BigNum::operator/`: throws `DivisionByZero` on a zero divisor. -/
def div (a b : BigNum) : Except Err BigNum :=
  if isZero b then .error .divisionByZero else .ok (divRaw a b)

/-- The body of `BigNum::operator%` after the division-by-zero test:
`remainder = *this - (*this / divisor) * divisor`, and if the remainder is
negative, add the divisor's absolute value. -/
def modRaw (a b : BigNum) : BigNum :=
  if (sub a (mul (divRaw a b) b)).is_negative then
    add (sub a (mul (divRaw a b) b)) (if b.is_negative then neg b else b)
  else sub a (mul (divRaw a b) b)

/-- `BigNum::operator%`: throws `DivisionByZero` on a zero divisor. -/
def mod (a b : BigNum) : Except Err BigNum :=
  if isZero b then .error .divisionByZero else .ok (modRaw a b)

/-- `BigNum::addMod`: `(a + b) % m`. -/
def addMod (a b m : BigNum) : Except Err BigNum := mod (add a b) m

/-- `BigNum::mulMod`: `(a * b) % m`. -/
def mulMod (a b m : BigNum) : Except Err BigNum := mod (mul a b) m

/-- `mulMod` as used inside the `powMod` loop, where the modulus is known
to be nonzero (a zero modulus is caught by the `base = *this % m` reduction
before the loop is reached). -/
def mulModRaw (a b m : BigNum) : BigNum := modRaw (mul a b) m

/-- The square-and-multiply loop of `powMod`: while the exponent is not
zero, multiply the accumulator by the base if the least-significant decimal
digit is odd (`e.digits[0] & 1`), halve the exponent with `e / BigNum(2)`,
and square the base, all modulo `m`. -/
def powModLoop : ℕ → BigNum → BigNum → BigNum → BigNum → BigNum
  | 0, result, _, _, _ => result
  | f + 1, result, base, e, m =>
    if isZero e then result
    else
      let result2 := if e.digits.headD 0 % 2 = 1 then mulModRaw result base m else result
      let e2 := divRaw e (ofInt 2)
      let base2 := mulModRaw base base m
      powModLoop f result2 base2 e2 m

/-- `BigNum::powMod`: result is `0` when `m` is one; otherwise reduce the
base modulo `m` (this is where a zero modulus throws) and run the
square-and-multiply loop.  The fuel `natMag e + 1` is sufficient because
the magnitude of the exponent strictly decreases at each halving. -/
def powMod (a e m : BigNum) : Except Err BigNum :=
  if isOne m then .ok (ofInt 0)
  else
    match mod a m with
    | .error err => .error err
    | .ok base => .ok (powModLoop (natMag e + 1) (ofInt 1) base e m)

/-- Fueled `BigNum::extendedGCD`: base case `b = 0` returns `(a, 1, 0)`;
otherwise recurse on `(b, a % b)` and back-substitute
`x = y1, y = x1 - (a / b) * y1`.  The divisor `b` is nonzero in the
recursive branch, so the pure `modRaw`/`divRaw` apply. -/
def extendedGCD : ℕ → BigNum → BigNum → BigNum × BigNum × BigNum
  | 0, a, _ => (a, ofInt 1, ofInt 0)
  | f + 1, a, b =>
    if isZero b then (a, ofInt 1, ofInt 0)
    else
      let p := extendedGCD f b (modRaw a b)
      (p.1, p.2.2, sub p.2.1 (mul (divRaw a b) p.2.2))

/-- `extendedGCD` with the fuel that is sufficient for every pair of values
satisfying the representation invariant (the magnitude of the second
argument strictly decreases at each recursive call). -/
def extendedGCDTop (a b : BigNum) : BigNum × BigNum × BigNum :=
  extendedGCD (natMag b + 1) a b

/-- `BigNum::modInverse`: reduce `a % m` (a zero modulus throws here), run
the extended GCD against `m`, fail with `NoInverse` unless the gcd is one,
otherwise return `x % m`, plus `m` if that is negative. -/
def modInverse (a m : BigNum) : Except Err BigNum :=
  match mod a m with
  | .error err => .error err
  | .ok am =>
    let p := extendedGCDTop am m
    if isOne p.1 then
      let r := modRaw p.2.1 m
      .ok (if r.is_negative then add r m else r)
    else .error .noInverse

/-- Digit character of a decimal digit (`digits[i] + '0'`). -/
def digitChar (d : ℕ) : Char := Char.ofNat (48 + d)

/-- `str[i] >= '0' && str[i] <= '9'`. -/
def isDigitChar (c : Char) : Bool := 48 ≤ c.toNat && c.toNat ≤ 57

/-- `BigNum::toString`: a minus sign when negative and nonzero, then the
digits from most significant to least significant. -/
def toString (x : BigNum) : List Char :=
  (if x.is_negative && !isZero x then ['-'] else []) ++ x.digits.reverse.map digitChar

/-- The `BigNum(const string&)` constructor: empty string gives zero; a
leading `-` sets the sign; the remaining characters are scanned from the
end and every decimal digit is appended (non-digits are skipped); if no
digit was found the value falls back to zero; finally
`removeLeadingZeros` runs and the sign is cleared on a zero value. -/
def fromString : List Char → BigNum
  | [] => ⟨[0], false⟩
  | c :: cs =>
    let sgn := decide (c = '-')
    let body := if sgn then cs else c :: cs
    let ds : List ℕ := (body.reverse.filter isDigitChar).map (fun ch => ch.toNat - 48)
    let ds2 := if ds = [] then [0] else ds
    let sgn2 := if ds = [] then false else sgn
    let ds3 := removeLeadingZeros ds2
    (⟨ds3, if ds3 = [0] then false else sgn2⟩ : BigNum)

/-! ### Basic facts about digit-list values -/

theorem digitsVal_nil : digitsVal [] = 0 := rfl

theorem digitsVal_cons (d : ℕ) (ds : List ℕ) :
    digitsVal (d :: ds) = d + 10 * digitsVal ds := rfl

theorem digitsVal_append (l1 l2 : List ℕ) :
    digitsVal (l1 ++ l2) = digitsVal l1 + 10 ^ l1.length * digitsVal l2 := by
  induction l1 with
  | nil => simp [digitsVal]
  | cons d ds ih => simp [digitsVal_cons, ih, pow_succ]; ring

theorem digitsVal_lt (l : List ℕ) (h : ∀ d ∈ l, d < 10) :
    digitsVal l < 10 ^ l.length := by
  induction l with
  | nil => simp [digitsVal]
  | cons d ds ih =>
    have hd : d < 10 := h d (List.mem_cons_self d ds)
    have : digitsVal ds < 10 ^ ds.length := ih (fun x hx => h x (List.mem_cons_of_mem d hx))
    simp only [digitsVal_cons, List.length_cons, pow_succ]
    omega

theorem getLastD_of_ne_nil {l : List ℕ} (h : l ≠ []) (d1 d2 : ℕ) :
    l.getLastD d1 = l.getLastD d2 := by
  cases hl : l.getLast? with
  | none => exact absurd (List.getLast?_eq_none_iff.mp hl) h
  | some x => rw [List.getLastD_eq_getLast?, List.getLastD_eq_getLast?, hl]; rfl

theorem canonDigits_tail {a b : ℕ} {t : List ℕ} (h : CanonDigits (a :: b :: t)) :
    CanonDigits (b :: t) := by
  obtain ⟨-, hb, hl⟩ := h
  refine ⟨by simp, fun d hd => hb d (List.mem_cons_of_mem a hd), ?_⟩
  rcases hl with hl | hl
  · left
    rwa [List.getLastD_cons, getLastD_of_ne_nil (by simp) a 1] at hl
  · simp at hl

theorem digitsVal_eq_zero {l : List ℕ} (h : CanonDigits l) (hv : digitsVal l = 0) :
    l = [0] := by
  induction l with
  | nil => exact absurd rfl h.1
  | cons d ds ih =>
    rw [digitsVal_cons] at hv
    have hd : d = 0 := by omega
    have hds : digitsVal ds = 0 := by omega
    cases ds with
    | nil => simp [hd]
    | cons e t =>
      have := ih (canonDigits_tail h) hds
      subst hd
      rcases h.2.2 with hlast | hlast
      · rw [this] at hlast
        simp [List.getLastD_cons] at hlast
      · simp at hlast

theorem le_digitsVal_of_canon {l : List ℕ} (h : CanonDigits l) (h0 : l ≠ [0]) :
    10 ^ (l.length - 1) ≤ digitsVal l := by
  induction l with
  | nil => exact absurd rfl h.1
  | cons d ds ih =>
    cases ds with
    | nil =>
      have : d ≠ 0 := by
        rcases h.2.2 with hl | hl
        · simpa using hl
        · exact absurd hl h0
      simpa [digitsVal] using Nat.one_le_iff_ne_zero.mpr this
    | cons e t =>
      have htail : CanonDigits (e :: t) := canonDigits_tail h
      have h0t : (e :: t) ≠ [0] := by
        intro he
        rcases h.2.2 with hl | hl
        · rw [he] at hl
          simp [List.getLastD_cons] at hl
        · simp at hl
      have := ih htail h0t
      have hlen1 : (e :: t).length - 1 = t.length := by simp
      have hlen2 : (d :: e :: t).length - 1 = t.length + 1 := by simp
      rw [hlen1] at this
      rw [hlen2, pow_succ, digitsVal_cons]
      omega

theorem canonDigits_inj {l m : List ℕ} (hl : CanonDigits l) (hm : CanonDigits m)
    (hv : digitsVal l = digitsVal m) : l = m := by
  induction l generalizing m with
  | nil => exact absurd rfl hl.1
  | cons d ds ih =>
    cases m with
    | nil => exact absurd rfl hm.1
    | cons e t =>
      have hd : d < 10 := hl.2.1 d (by simp)
      have he : e < 10 := hm.2.1 e (by simp)
      simp only [digitsVal_cons] at hv
      have hde : d = e := by omega
      have hvt : digitsVal ds = digitsVal t := by omega
      subst hde
      cases ds with
      | nil =>
        cases t with
        | nil => rfl
        | cons u v =>
          have : (u :: v) = [0] :=
            digitsVal_eq_zero (canonDigits_tail hm) (by simpa [digitsVal] using hvt.symm)
          rw [this] at hm
          rcases hm.2.2 with hx | hx
          · simp [List.getLastD_cons] at hx
          · simp at hx
      | cons u v =>
        cases t with
        | nil =>
          have : (u :: v) = [0] :=
            digitsVal_eq_zero (canonDigits_tail hl) (by simpa [digitsVal] using hvt)
          rw [this] at hl
          rcases hl.2.2 with hx | hx
          · simp [List.getLastD_cons] at hx
          · simp at hx
        | cons w z =>
          have := ih (canonDigits_tail hl) (canonDigits_tail hm) hvt
          rw [this]

/-! ### Facts about the signed value and the representation invariant -/

theorem toVal_of_neg_false {a : BigNum} (h : a.is_negative = false) :
    toVal a = (natMag a : ℤ) := by simp [toVal, h]

theorem toVal_of_neg_true {a : BigNum} (h : a.is_negative = true) :
    toVal a = -(natMag a : ℤ) := by simp [toVal, h]

theorem natMag_pos_of_ne_zero {a : BigNum} (h : Canon a) (h0 : a.digits ≠ [0]) :
    0 < natMag a := by
  rcases Nat.eq_zero_or_pos (natMag a) with hz | hp
  · exact absurd (digitsVal_eq_zero h.1 hz) h0
  · exact hp

theorem toVal_neg_sign {a : BigNum} (h : Canon a) (hs : a.is_negative = true) :
    toVal a < 0 := by
  have h0 : a.digits ≠ [0] := fun hd => by simp [h.2 hd] at hs
  have := natMag_pos_of_ne_zero h h0
  rw [toVal_of_neg_true hs]
  omega

theorem toVal_nonneg_sign {a : BigNum} (hs : a.is_negative = false) :
    0 ≤ toVal a := by
  rw [toVal_of_neg_false hs]
  exact Int.ofNat_nonneg _

theorem toVal_inj {a b : BigNum} (ha : Canon a) (hb : Canon b)
    (hv : toVal a = toVal b) : a = b := by
  have habs : ∀ x : BigNum, (toVal x).natAbs = natMag x := by
    intro x
    cases hs : x.is_negative <;> simp [toVal, hs]
  have hmag : natMag a = natMag b := by
    rw [← habs a, ← habs b, hv]
  have hdig : a.digits = b.digits := canonDigits_inj ha.1 hb.1 hmag
  have hsign : a.is_negative = b.is_negative := by
    by_cases hz : a.digits = [0]
    · rw [ha.2 hz, hb.2 (hdig ▸ hz)]
    · have hpa := natMag_pos_of_ne_zero ha hz
      cases hsa : a.is_negative <;> cases hsb : b.is_negative
      · rfl
      · rw [toVal_of_neg_false hsa, toVal_of_neg_true hsb] at hv
        omega
      · rw [toVal_of_neg_true hsa, toVal_of_neg_false hsb] at hv
        omega
      · rfl
  cases a
  cases b
  simp_all

theorem isZero_iff_digits {a : BigNum} : isZero a = true ↔ a.digits = [0] := by
  simp [isZero]

theorem isZero_iff_val {a : BigNum} (h : Canon a) : isZero a = true ↔ toVal a = 0 := by
  rw [isZero_iff_digits]
  constructor
  · intro hd
    simp [toVal, natMag, hd, digitsVal]
  · intro hv
    have : natMag a = 0 := by
      cases hs : a.is_negative
      · rw [toVal_of_neg_false hs] at hv
        omega
      · rw [toVal_of_neg_true hs] at hv
        omega
    exact digitsVal_eq_zero h.1 this

/-! ### Normalization: `stripMS`, `removeLeadingZeros`, `fixup` -/

theorem stripMS_cons_cons (d e : ℕ) (t : List ℕ) :
    stripMS (d :: e :: t) = if d = 0 then stripMS (e :: t) else d :: e :: t := rfl

theorem stripMS_val (r : List ℕ) :
    digitsVal (stripMS r).reverse = digitsVal r.reverse := by
  induction r with
  | nil => rfl
  | cons d ds ih =>
    cases ds with
    | nil => rfl
    | cons e t =>
      rw [stripMS_cons_cons]
      by_cases hd : d = 0
      · rw [if_pos hd, ih, hd]
        simp [digitsVal_append, digitsVal]
      · rw [if_neg hd]

theorem stripMS_ne_nil {r : List ℕ} (h : r ≠ []) : stripMS r ≠ [] := by
  induction r with
  | nil => exact absurd rfl h
  | cons d ds ih =>
    cases ds with
    | nil => simp [stripMS]
    | cons e t =>
      rw [stripMS_cons_cons]
      split
      · exact ih (by simp)
      · simp

theorem stripMS_head {r : List ℕ} (h : r ≠ []) :
    (stripMS r).headD 1 ≠ 0 ∨ stripMS r = [0] := by
  induction r with
  | nil => exact absurd rfl h
  | cons d ds ih =>
    cases ds with
    | nil =>
      by_cases hd : d = 0
      · right; simp [stripMS, hd]
      · left; simpa [stripMS] using hd
    | cons e t =>
      rw [stripMS_cons_cons]
      split
      · exact ih (by simp)
      · next hd => left; simpa using hd

theorem stripMS_subset {r : List ℕ} : ∀ d ∈ stripMS r, d ∈ r := by
  induction r with
  | nil => simp [stripMS]
  | cons a ds ih =>
    cases ds with
    | nil => simp [stripMS]
    | cons e t =>
      intro d hd
      rw [stripMS_cons_cons] at hd
      split at hd
      · exact List.mem_cons_of_mem a (ih d hd)
      · exact hd

theorem stripMS_of_head {r : List ℕ} (h : r.headD 1 ≠ 0 ∨ r = [0]) :
    stripMS r = r := by
  cases r with
  | nil => rfl
  | cons d ds =>
    cases ds with
    | nil => rfl
    | cons e t =>
      rw [stripMS_cons_cons, if_neg]
      rcases h with h | h
      · simpa using h
      · simp at h

theorem removeLeadingZeros_val (l : List ℕ) :
    digitsVal (removeLeadingZeros l) = digitsVal l := by
  rw [removeLeadingZeros, stripMS_val, List.reverse_reverse]

theorem headD_reverse (l : List ℕ) (d : ℕ) : l.reverse.headD d = l.getLastD d := by
  cases h : l.reverse with
  | nil =>
    have : l = [] := by simpa using congrArg List.reverse h
    simp [this]
  | cons a t =>
    have : l = (a :: t).reverse := by
      have := congrArg List.reverse h
      simpa using this
    subst this
    simp [List.getLastD_concat]

theorem removeLeadingZeros_canon {l : List ℕ} (h : l ≠ []) (hb : ∀ d ∈ l, d < 10) :
    CanonDigits (removeLeadingZeros l) := by
  have hrev : l.reverse ≠ [] := by simpa using h
  refine ⟨by simpa [removeLeadingZeros] using stripMS_ne_nil hrev, ?_, ?_⟩
  · intro d hd
    rw [removeLeadingZeros, List.mem_reverse] at hd
    exact hb d (by simpa using stripMS_subset d hd)
  · rw [removeLeadingZeros]
    rcases stripMS_head hrev with hh | hh
    · left
      rw [← headD_reverse, List.reverse_reverse]
      exact hh
    · right
      rw [hh]
      rfl

theorem removeLeadingZeros_of_canon {l : List ℕ} (h : CanonDigits l) :
    removeLeadingZeros l = l := by
  rw [removeLeadingZeros, stripMS_of_head, List.reverse_reverse]
  rcases h.2.2 with hh | hh
  · left
    rw [headD_reverse]
    exact hh
  · right
    rw [hh]
    rfl

theorem fixup_canon {ds : List ℕ} (s : Bool) (h : ds ≠ []) (hb : ∀ d ∈ ds, d < 10) :
    Canon (fixup s ds) := by
  refine ⟨removeLeadingZeros_canon h hb, ?_⟩
  intro hz
  have hz2 : removeLeadingZeros ds = [0] := hz
  show (if removeLeadingZeros ds = [0] then false else s) = false
  rw [if_pos hz2]

theorem fixup_val (s : Bool) (ds : List ℕ) :
    toVal (fixup s ds) = if s then -(digitsVal ds : ℤ) else (digitsVal ds : ℤ) := by
  simp only [fixup, toVal, natMag]
  by_cases hz : removeLeadingZeros ds = [0]
  · have : digitsVal ds = 0 := by
      have := removeLeadingZeros_val ds
      rw [hz] at this
      simpa [digitsVal] using this.symm
    simp [hz, this, digitsVal]
  · rw [if_neg hz, removeLeadingZeros_val]

/-! ### The integer constructor -/

theorem natDigits_zero : natDigits 0 = [] := by rw [natDigits]

theorem natDigits_val (n : ℕ) : digitsVal (natDigits n) = n := by
  induction n using Nat.strong_induction_on with
  | _ n ih =>
    cases n with
    | zero => rw [natDigits_zero]; rfl
    | succ m =>
      rw [natDigits, digitsVal_cons, ih ((m + 1) / 10) (Nat.div_lt_self (Nat.succ_pos m) (by norm_num))]
      omega

theorem natDigits_bounded (n : ℕ) : ∀ d ∈ natDigits n, d < 10 := by
  induction n using Nat.strong_induction_on with
  | _ n ih =>
    cases n with
    | zero => rw [natDigits_zero]; simp
    | succ m =>
      rw [natDigits]
      intro d hd
      rcases List.mem_cons.mp hd with h | h
      · omega
      · exact ih ((m + 1) / 10) (Nat.div_lt_self (Nat.succ_pos m) (by norm_num)) d h

theorem natDigits_canon {n : ℕ} (h : n ≠ 0) : CanonDigits (natDigits n) := by
  refine ⟨?_, natDigits_bounded n, ?_⟩
  · cases n with
    | zero => exact absurd rfl h
    | succ m => rw [natDigits]; simp
  · left
    induction n using Nat.strong_induction_on with
    | _ n ih =>
      cases n with
      | zero => exact absurd rfl h
      | succ m =>
        rw [natDigits]
        by_cases hq : (m + 1) / 10 = 0
        · have hnil : natDigits ((m + 1) / 10) = [] := by rw [hq, natDigits_zero]
          rw [hnil]
          have : ([(m + 1) % 10] : List ℕ).getLastD 1 = (m + 1) % 10 := rfl
          rw [this]
          omega
        · have hne : natDigits ((m + 1) / 10) ≠ [] := by
            cases hcase : (m + 1) / 10 with
            | zero => exact absurd hcase hq
            | succ k => rw [natDigits]; simp
          have := ih ((m + 1) / 10) (Nat.div_lt_self (Nat.succ_pos m) (by norm_num)) hq
          rw [List.getLastD_cons, getLastD_of_ne_nil hne _ 1]
          exact this

theorem ofInt_canon (n : ℤ) : Canon (ofInt n) := by
  rw [ofInt]
  split
  · exact ⟨⟨by simp, by simp, Or.inr rfl⟩, fun _ => rfl⟩
  · next hn =>
    have habs : n.natAbs ≠ 0 := fun h => hn (Int.natAbs_eq_zero.mp h)
    refine ⟨natDigits_canon habs, fun hd => ?_⟩
    exfalso
    have hd2 : natDigits n.natAbs = [0] := hd
    have := natDigits_val n.natAbs
    rw [hd2] at this
    simp [digitsVal] at this
    exact habs this.symm

theorem ofInt_val (n : ℤ) : toVal (ofInt n) = n := by
  rw [ofInt]
  split
  · next hn => simp [toVal, natMag, digitsVal, hn]
  · next hn =>
    have hmag : natMag (⟨natDigits n.natAbs, decide (n < 0)⟩ : BigNum) = n.natAbs := by
      show digitsVal (natDigits n.natAbs) = n.natAbs
      exact natDigits_val n.natAbs
    by_cases hneg : n < 0
    · rw [toVal_of_neg_true (by simpa using hneg), hmag]
      omega
    · rw [toVal_of_neg_false (by simpa using hneg), hmag]
      omega

/-! ### The unary minus -/

theorem neg_canon {a : BigNum} (h : Canon a) : Canon (neg a) := by
  rw [neg]
  split
  · exact h
  · next hz =>
    refine ⟨h.1, fun hd => ?_⟩
    exact absurd (isZero_iff_digits.mpr hd) hz

theorem neg_val {a : BigNum} (h : Canon a) : toVal (neg a) = -toVal a := by
  rw [neg]
  split
  · next hz =>
    have := (isZero_iff_val h).mp hz
    omega
  · cases hs : a.is_negative
    · rw [toVal_of_neg_false hs]
      simp [toVal, natMag, hs]
    · rw [toVal_of_neg_true hs]
      simp [toVal, natMag, hs]

theorem neg_digits (a : BigNum) : (neg a).digits = a.digits := by
  rw [neg]; split <;> rfl

/-! ### Comparison operators -/

theorem ltDigitsMS_correct :
    ∀ xs ys : List ℕ, xs.length = ys.length → (∀ d ∈ xs, d < 10) → (∀ d ∈ ys, d < 10) →
      (ltDigitsMS xs ys = true ↔ digitsVal xs.reverse < digitsVal ys.reverse)
  | [], [], _, _, _ => by simp [ltDigitsMS]
  | [], y :: ys, h, _, _ => by simp at h
  | x :: xs, [], h, _, _ => by simp at h
  | x :: xs, y :: ys, h, hx, hy => by
    have hlen : xs.length = ys.length := by simpa using h
    have hxv : digitsVal xs.reverse < 10 ^ ys.length := by
      have := digitsVal_lt xs.reverse
        (fun d hd => hx d (List.mem_cons_of_mem x (List.mem_reverse.mp hd)))
      rwa [List.length_reverse, hlen] at this
    have hyv : digitsVal ys.reverse < 10 ^ ys.length := by
      have := digitsVal_lt ys.reverse
        (fun d hd => hy d (List.mem_cons_of_mem y (List.mem_reverse.mp hd)))
      rwa [List.length_reverse] at this
    have happ : digitsVal (x :: xs).reverse = digitsVal xs.reverse + 10 ^ ys.length * x := by
      rw [List.reverse_cons, digitsVal_append, List.length_reverse, hlen]
      simp [digitsVal]
    have happ2 : digitsVal (y :: ys).reverse = digitsVal ys.reverse + 10 ^ ys.length * y := by
      rw [List.reverse_cons, digitsVal_append, List.length_reverse]
      simp [digitsVal]
    rw [ltDigitsMS, happ, happ2]
    by_cases hxy : x = y
    · subst hxy
      rw [if_neg (by simp)]
      rw [ltDigitsMS_correct xs ys hlen (fun d hd => hx d (List.mem_cons_of_mem x hd))
        (fun d hd => hy d (List.mem_cons_of_mem x hd))]
      exact (Nat.add_lt_add_iff_right).symm
    · rw [if_pos (by simpa using hxy)]
      simp only [decide_eq_true_eq]
      constructor
      · intro hlt
        have h1 : x + 1 ≤ y := hlt
        calc digitsVal xs.reverse + 10 ^ ys.length * x
            < 10 ^ ys.length + 10 ^ ys.length * x := by omega
          _ = 10 ^ ys.length * (x + 1) := by ring
          _ ≤ 10 ^ ys.length * y := Nat.mul_le_mul_left _ h1
          _ ≤ digitsVal ys.reverse + 10 ^ ys.length * y := by omega
      · intro hlt
        by_contra hge
        have h2 : y + 1 ≤ x := by omega
        have : digitsVal ys.reverse + 10 ^ ys.length * y
            < digitsVal xs.reverse + 10 ^ ys.length * x := by
          calc digitsVal ys.reverse + 10 ^ ys.length * y
              < 10 ^ ys.length + 10 ^ ys.length * y := by omega
            _ = 10 ^ ys.length * (y + 1) := by ring
            _ ≤ 10 ^ ys.length * x := Nat.mul_le_mul_left _ h2
            _ ≤ digitsVal xs.reverse + 10 ^ ys.length * x := by omega
        omega

theorem digitsVal_lt_of_shorter {l m : List ℕ} (hl : ∀ d ∈ l, d < 10)
    (hm : CanonDigits m) (h0 : m ≠ [0]) (hlen : l.length < m.length) :
    digitsVal l < digitsVal m := by
  have h1 := digitsVal_lt l hl
  have h2 := le_digitsVal_of_canon hm h0
  have : 10 ^ l.length ≤ 10 ^ (m.length - 1) := Nat.pow_le_pow_right (by norm_num) (by omega)
  omega

theorem ltPos_correct {a b : BigNum} (ha : Canon a) (hb : Canon b)
    (hsa : a.is_negative = false) (hsb : b.is_negative = false) (f : ℕ) :
    (ltAux (f + 1) a b = true ↔ toVal a < toVal b) := by
  rw [ltAux]
  rw [if_neg (by simp [hsa, hsb]), if_neg (by simp [hsa])]
  rw [toVal_of_neg_false hsa, toVal_of_neg_false hsb]
  by_cases hlen : a.digits.length = b.digits.length
  · rw [if_neg (by simpa using hlen)]
    have := ltDigitsMS_correct a.digits.reverse b.digits.reverse
      (by simpa using hlen) (fun d hd => ha.1.2.1 d (by simpa using hd))
      (fun d hd => hb.1.2.1 d (by simpa using hd))
    simp only [List.reverse_reverse] at this
    rw [this]
    unfold natMag
    omega
  · rw [if_pos (by simpa using hlen)]
    rcases Nat.lt_or_ge a.digits.length b.digits.length with hc | hc
    · have hb0 : b.digits ≠ [0] := by
        intro h
        rw [h] at hc
        have := ha.1.1
        cases hd : a.digits with
        | nil => exact this hd
        | cons x t => rw [hd] at hc; simp at hc
      have hv : natMag a < natMag b := digitsVal_lt_of_shorter ha.1.2.1 hb.1 hb0 hc
      constructor
      · intro
        omega
      · intro
        simpa using hc
    · have hc2 : b.digits.length < a.digits.length := by omega
      have ha0 : a.digits ≠ [0] := by
        intro h
        rw [h] at hc2
        have := hb.1.1
        cases hd : b.digits with
        | nil => exact this hd
        | cons x t => rw [hd] at hc2; simp at hc2
      have hv : natMag b < natMag a := digitsVal_lt_of_shorter hb.1.2.1 ha.1 ha0 hc2
      constructor
      · intro hx
        have : a.digits.length < b.digits.length := by simpa using hx
        omega
      · intro
        omega

theorem lt_iff {a b : BigNum} (ha : Canon a) (hb : Canon b) :
    (lt a b = true ↔ toVal a < toVal b) := by
  rw [lt]
  cases hsa : a.is_negative <;> cases hsb : b.is_negative
  · exact ltPos_correct ha hb hsa hsb 1
  · rw [ltAux, if_pos (by simp [hsa, hsb])]
    have h1 := toVal_nonneg_sign hsa
    have h2 := toVal_neg_sign hb hsb
    rw [hsa]
    constructor
    · intro h
      simp at h
    · intro h
      omega
  · rw [ltAux, if_pos (by simp [hsa, hsb])]
    have h1 := toVal_neg_sign ha hsa
    have h2 := toVal_nonneg_sign hsb
    rw [hsa]
    simp only [true_iff]
    omega
  · rw [ltAux, if_neg (by simp [hsa, hsb]), if_pos (by simp [hsa])]
    have hna : Canon (neg a) := neg_canon ha
    have hnb : Canon (neg b) := neg_canon hb
    have hsna : (neg a).is_negative = false := by
      rw [neg, if_neg]
      · simp [hsa]
      · intro h
        rw [isZero_iff_digits] at h
        have := ha.2 h
        rw [this] at hsa
        simp at hsa
    have hsnb : (neg b).is_negative = false := by
      rw [neg, if_neg]
      · simp [hsb]
      · intro h
        rw [isZero_iff_digits] at h
        have := hb.2 h
        rw [this] at hsb
        simp at hsb
    rw [ltPos_correct hnb hna hsnb hsna 0, neg_val ha, neg_val hb]
    omega

theorem ge_iff {a b : BigNum} (ha : Canon a) (hb : Canon b) :
    (ge a b = true ↔ toVal b ≤ toVal a) := by
  rw [ge]
  rw [Bool.not_eq_true']
  rw [← Bool.not_eq_true (lt a b)]
  rw [lt_iff ha hb]
  omega

/-! ### Magnitude addition and subtraction -/

theorem carryDigits_val (c : ℕ) : digitsVal (carryDigits c) = c := by
  induction c using Nat.strong_induction_on with
  | _ c ih =>
    cases c with
    | zero => rw [carryDigits]; rfl
    | succ m =>
      rw [carryDigits, digitsVal_cons,
        ih ((m + 1) / 10) (Nat.div_lt_self (Nat.succ_pos m) (by norm_num))]
      omega

theorem carryDigits_bounded (c : ℕ) : ∀ d ∈ carryDigits c, d < 10 := by
  induction c using Nat.strong_induction_on with
  | _ c ih =>
    cases c with
    | zero => rw [carryDigits]; simp
    | succ m =>
      rw [carryDigits]
      intro d hd
      rcases List.mem_cons.mp hd with h | h
      · omega
      · exact ih ((m + 1) / 10) (Nat.div_lt_self (Nat.succ_pos m) (by norm_num)) d h

theorem addMag_val : ∀ (xs ys : List ℕ) (c : ℕ),
    digitsVal (addMag xs ys c) = digitsVal xs + digitsVal ys + c
  | [], [], c => by
    rw [addMag, carryDigits_val]
    simp [digitsVal]
  | [], y :: ys, c => by
    rw [addMag, digitsVal_cons, addMag_val [] ys ((y + c) / 10), digitsVal_nil, digitsVal_cons]
    omega
  | x :: xs, [], c => by
    rw [addMag, digitsVal_cons, addMag_val xs [] ((x + c) / 10), digitsVal_cons, digitsVal_nil]
    omega
  | x :: xs, y :: ys, c => by
    rw [addMag, digitsVal_cons, addMag_val xs ys ((x + y + c) / 10), digitsVal_cons,
      digitsVal_cons]
    omega
termination_by xs ys _ => xs.length + ys.length

theorem addMag_bounded : ∀ (xs ys : List ℕ) (c : ℕ), ∀ d ∈ addMag xs ys c, d < 10
  | [], [], c => by
    rw [addMag]
    exact carryDigits_bounded c
  | [], y :: ys, c => by
    rw [addMag]
    intro d hd
    rcases List.mem_cons.mp hd with h | h
    · omega
    · exact addMag_bounded [] ys ((y + c) / 10) d h
  | x :: xs, [], c => by
    rw [addMag]
    intro d hd
    rcases List.mem_cons.mp hd with h | h
    · omega
    · exact addMag_bounded xs [] ((x + c) / 10) d h
  | x :: xs, y :: ys, c => by
    rw [addMag]
    intro d hd
    rcases List.mem_cons.mp hd with h | h
    · omega
    · exact addMag_bounded xs ys ((x + y + c) / 10) d h
termination_by xs ys _ => xs.length + ys.length

theorem addMag_ne_nil (xs ys : List ℕ) (c : ℕ) (h : xs ≠ [] ∨ ys ≠ []) :
    addMag xs ys c ≠ [] := by
  cases xs with
  | nil =>
    cases ys with
    | nil => simp at h
    | cons y t => rw [addMag]; simp
  | cons x t =>
    cases ys with
    | nil => rw [addMag]; simp
    | cons y t2 => rw [addMag]; simp

theorem digitsVal_headD_tail (l : List ℕ) :
    digitsVal l = l.headD 0 + 10 * digitsVal l.tail := by
  cases l <;> simp [digitsVal]

theorem subMag_bounded : ∀ (xs ys : List ℕ) (b : ℕ), (∀ d ∈ xs, d < 10) →
    ∀ d ∈ subMag xs ys b, d < 10
  | [], _, _, _ => by rw [subMag]; simp
  | x :: xs, ys, b, hx => by
    rw [subMag]
    have hx0 : x < 10 := hx x (by simp)
    intro d hd
    split at hd <;> rcases List.mem_cons.mp hd with h | h
    · next hneg => subst h; omega
    · exact subMag_bounded xs ys.tail 1 (fun e he => hx e (by simp [he])) d h
    · next hpos =>
      subst h
      have : ((x : ℤ) - b - (ys.headD 0 : ℕ)) ≤ x := by omega
      omega
    · exact subMag_bounded xs ys.tail 0 (fun e he => hx e (by simp [he])) d h

theorem subMag_length : ∀ (xs ys : List ℕ) (b : ℕ), (subMag xs ys b).length = xs.length
  | [], _, _ => by rw [subMag]
  | x :: xs, ys, b => by
    rw [subMag]
    split <;> simp [subMag_length xs ys.tail]

theorem subMag_val : ∀ (xs ys : List ℕ) (b : ℕ), b ≤ 1 → (∀ d ∈ xs, d < 10) →
    (∀ d ∈ ys, d < 10) → ys.length ≤ xs.length → digitsVal ys + b ≤ digitsVal xs →
    (digitsVal (subMag xs ys b) : ℤ) = (digitsVal xs : ℤ) - digitsVal ys - b
  | [], ys, b, hb, _, _, hlen, hval => by
    have hys : ys = [] := List.length_eq_zero.mp (by simpa using hlen)
    subst hys
    rw [subMag]
    rw [digitsVal_nil] at hval
    rw [digitsVal_nil]
    push_cast
    omega
  | x :: xs, ys, b, hb, hx, hy, hlen, hval => by
    have hx0 : x < 10 := hx x (by simp)
    have hy0 : ys.headD 0 < 10 := by
      cases ys with
      | nil => simp
      | cons y t => exact hy y (by simp)
    have hytail : ∀ d ∈ ys.tail, d < 10 := by
      cases ys with
      | nil => simp
      | cons y t => exact fun d hd => hy d (List.mem_cons_of_mem y (by simpa using hd))
    have hlent : ys.tail.length ≤ xs.length := by
      cases ys with
      | nil => simp
      | cons y t => simpa using hlen
    have hysplit : digitsVal ys = ys.headD 0 + 10 * digitsVal ys.tail :=
      digitsVal_headD_tail ys
    rw [digitsVal_cons] at hval
    rw [show digitsVal (x :: xs) = x + 10 * digitsVal xs from rfl, hysplit]
    rw [subMag]
    split
    · next hneg =>
      have hrec : digitsVal ys.tail + 1 ≤ digitsVal xs := by omega
      have hIH := subMag_val xs ys.tail 1 (by omega)
        (fun e he => hx e (List.mem_cons_of_mem x he)) hytail hlent hrec
      rw [digitsVal_cons]
      push_cast
      omega
    · next hpos =>
      have hrec : digitsVal ys.tail + 0 ≤ digitsVal xs := by omega
      have hIH := subMag_val xs ys.tail 0 (by omega)
        (fun e he => hx e (List.mem_cons_of_mem x he)) hytail hlent hrec
      rw [digitsVal_cons]
      push_cast
      omega

theorem length_le_of_val_le {l m : List ℕ} (hl : CanonDigits l) (hm : CanonDigits m)
    (h : digitsVal l ≤ digitsVal m) : l.length ≤ m.length := by
  by_cases hl0 : l = [0]
  · subst hl0
    cases hme : m with
    | nil => exact absurd hme hm.1
    | cons x t => simp
  · by_contra hc
    have := digitsVal_lt_of_shorter hm.2.1 hl hl0 (by omega)
    omega

/-! ### Correctness of `operator+` and `operator-` -/

theorem toVal_mk_false (ds : List ℕ) : toVal ⟨ds, false⟩ = (digitsVal ds : ℤ) := by
  simp [toVal, natMag]

theorem neg_sign_of_neg {a : BigNum} (ha : Canon a) (hs : a.is_negative = true) :
    (neg a).is_negative = false := by
  rw [neg, if_neg]
  · simp [hs]
  · intro h
    rw [isZero_iff_digits] at h
    rw [ha.2 h] at hs
    simp at hs

theorem neg_sign_of_pos {a : BigNum} (hs : a.is_negative = false)
    (hz : isZero a = false) : (neg a).is_negative = true := by
  rw [neg, if_neg (by simp [hz])]
  simp [hs]

theorem natMag_cast_of_pos {a : BigNum} (hs : a.is_negative = false) :
    (natMag a : ℤ) = toVal a := by
  rw [toVal_of_neg_false hs]

theorem subAux_base {a b : BigNum} (f : ℕ) (ha : Canon a) (hb : Canon b)
    (hsa : a.is_negative = false) (hsb : b.is_negative = false)
    (hle : toVal b ≤ toVal a) :
    Canon (subAux (f + 1) a b) ∧ toVal (subAux (f + 1) a b) = toVal a - toVal b := by
  have hmag : digitsVal b.digits ≤ digitsVal a.digits := by
    rw [toVal_of_neg_false hsa, toVal_of_neg_false hsb] at hle
    simpa [natMag] using hle
  have hlt : lt a b = false := by
    rw [← Bool.not_eq_true]
    rw [lt_iff ha hb]
    omega
  rw [subAux, if_neg (by simp [hsa, hsb]), if_neg (by simp [hsa]), if_neg (by simp [hlt])]
  have hbnd := subMag_bounded a.digits b.digits 0 ha.1.2.1
  have hne : subMag a.digits b.digits 0 ≠ [] := by
    intro hcon
    have hlen := subMag_length a.digits b.digits 0
    rw [hcon] at hlen
    have hpos : 0 < a.digits.length := List.length_pos.mpr ha.1.1
    simp at hlen
    omega
  constructor
  · refine ⟨removeLeadingZeros_canon hne hbnd, fun _ => rfl⟩
  · rw [toVal_mk_false, removeLeadingZeros_val]
    rw [subMag_val a.digits b.digits 0 (by omega) ha.1.2.1 hb.1.2.1
      (length_le_of_val_le hb.1 ha.1 hmag) (by omega)]
    rw [toVal_of_neg_false hsa, toVal_of_neg_false hsb]
    simp [natMag]

theorem subAux_nonneg {a b : BigNum} (f : ℕ) (ha : Canon a) (hb : Canon b)
    (hsa : a.is_negative = false) (hsb : b.is_negative = false) :
    Canon (subAux (f + 2) a b) ∧ toVal (subAux (f + 2) a b) = toVal a - toVal b := by
  by_cases hlt : toVal a < toVal b
  · have hltb : lt a b = true := (lt_iff ha hb).mpr hlt
    have hstep : subAux (f + 2) a b = neg (subAux (f + 1) b a) := by
      rw [subAux, if_neg (by simp [hsa, hsb]), if_neg (by simp [hsa]), if_pos (by simp [hltb])]
    obtain ⟨hc, hv⟩ := subAux_base f hb ha hsb hsa (le_of_lt hlt)
    rw [hstep]
    exact ⟨neg_canon hc, by rw [neg_val hc, hv]; ring⟩
  · exact subAux_base (f + 1) ha hb hsa hsb (by omega)

theorem addAux_same {a b : BigNum} (f : ℕ) (ha : Canon a) (hb : Canon b)
    (hss : a.is_negative = b.is_negative) :
    Canon (addAux (f + 1) a b) ∧ toVal (addAux (f + 1) a b) = toVal a + toVal b := by
  rw [addAux, if_pos hss]
  refine ⟨fixup_canon _ (addMag_ne_nil _ _ _ (Or.inl ha.1.1)) (addMag_bounded _ _ _), ?_⟩
  rw [fixup_val, addMag_val]
  cases hs : a.is_negative
  · rw [if_neg (by simp)]
    rw [toVal_of_neg_false hs, toVal_of_neg_false (hss ▸ hs)]
    simp only [natMag]
    push_cast
    ring
  · rw [if_pos rfl]
    rw [toVal_of_neg_true hs, toVal_of_neg_true (hss ▸ hs)]
    simp only [natMag]
    push_cast
    ring

theorem addAux_diff {a b : BigNum} (f : ℕ) (ha : Canon a) (hb : Canon b)
    (hss : a.is_negative ≠ b.is_negative) :
    Canon (addAux (f + 3) a b) ∧ toVal (addAux (f + 3) a b) = toVal a + toVal b := by
  cases hsa : a.is_negative
  · have hsb : b.is_negative = true := by
      cases hsb : b.is_negative
      · rw [hsa, hsb] at hss
        simp at hss
      · rfl
    have hstep : addAux (f + 3) a b = subAux (f + 2) a (neg b) := by
      rw [addAux, if_neg (by rw [hsa, hsb]; simp), if_neg (by simp [hsa])]
    rw [hstep]
    obtain ⟨hc, hv⟩ := subAux_nonneg f ha (neg_canon hb) hsa (neg_sign_of_neg hb hsb)
    exact ⟨hc, by rw [hv, neg_val hb]; ring⟩
  · have hsb : b.is_negative = false := by
      cases hsb : b.is_negative
      · rfl
      · rw [hsa, hsb] at hss
        simp at hss
    have hstep : addAux (f + 3) a b = subAux (f + 2) b (neg a) := by
      rw [addAux, if_neg (by rw [hsa, hsb]; simp), if_pos (by simp [hsa])]
    rw [hstep]
    obtain ⟨hc, hv⟩ := subAux_nonneg f hb (neg_canon ha) hsb (neg_sign_of_neg ha hsa)
    exact ⟨hc, by rw [hv, neg_val ha]; ring⟩

theorem subAux_spec {a b : BigNum} (f : ℕ) (ha : Canon a) (hb : Canon b) :
    Canon (subAux (f + 4) a b) ∧ toVal (subAux (f + 4) a b) = toVal a - toVal b := by
  by_cases hss : a.is_negative = b.is_negative
  · cases hsa : a.is_negative
    · have := subAux_nonneg (f + 2) ha hb hsa (hss ▸ hsa)
      exact this
    · have hsb : b.is_negative = true := hss ▸ hsa
      have hstep : subAux (f + 4) a b = subAux (f + 3) (neg b) (neg a) := by
        rw [subAux, if_neg (by simp [hss]), if_pos (by simp [hsa])]
      rw [hstep]
      obtain ⟨hc, hv⟩ := subAux_nonneg (f + 1) (neg_canon hb) (neg_canon ha)
        (neg_sign_of_neg hb hsb) (neg_sign_of_neg ha hsa)
      refine ⟨hc, ?_⟩
      rw [hv, neg_val hb, neg_val ha]
      ring
  · have hstep : subAux (f + 4) a b = addAux (f + 3) a (neg b) := by
      rw [subAux, if_pos hss]
    rw [hstep]
    by_cases hzb : isZero b = true
    · have hsb : b.is_negative = false := hb.2 (isZero_iff_digits.mp hzb)
      have hsa : a.is_negative = true := by
        cases hsa : a.is_negative
        · rw [hsa, hsb] at hss
          simp at hss
        · rfl
      have hnb : neg b = b := by rw [neg, if_pos hzb]
      rw [hnb]
      obtain ⟨hc, hv⟩ := addAux_diff f ha hb hss
      refine ⟨hc, ?_⟩
      rw [hv]
      have : toVal b = 0 := (isZero_iff_val hb).mp hzb
      omega
    · have hzb2 : isZero b = false := by
        cases h : isZero b
        · rfl
        · exact absurd h hzb
      cases hsb : b.is_negative
      · have hsa : a.is_negative = true := by
          cases hsa : a.is_negative
          · rw [hsa, hsb] at hss
            simp at hss
          · rfl
        have hsnb : (neg b).is_negative = true := neg_sign_of_pos hsb hzb2
        obtain ⟨hc, hv⟩ := addAux_same (f + 2) ha (neg_canon hb) (by rw [hsa, hsnb])
        refine ⟨hc, ?_⟩
        rw [hv, neg_val hb]
        ring
      · have hsa : a.is_negative = false := by
          cases hsa : a.is_negative
          · rfl
          · rw [hsa, hsb] at hss
            simp at hss
        have hsnb : (neg b).is_negative = false := neg_sign_of_neg hb hsb
        obtain ⟨hc, hv⟩ := addAux_same (f + 2) ha (neg_canon hb) (by rw [hsa, hsnb])
        refine ⟨hc, ?_⟩
        rw [hv, neg_val hb]
        ring

theorem add_spec {a b : BigNum} (ha : Canon a) (hb : Canon b) :
    Canon (add a b) ∧ toVal (add a b) = toVal a + toVal b := by
  by_cases hss : a.is_negative = b.is_negative
  · exact addAux_same 8 ha hb hss
  · exact addAux_diff 6 ha hb hss

theorem sub_spec {a b : BigNum} (ha : Canon a) (hb : Canon b) :
    Canon (sub a b) ∧ toVal (sub a b) = toVal a - toVal b :=
  subAux_spec 5 ha hb

theorem add_canon {a b : BigNum} (ha : Canon a) (hb : Canon b) : Canon (add a b) :=
  (add_spec ha hb).1

theorem add_val {a b : BigNum} (ha : Canon a) (hb : Canon b) :
    toVal (add a b) = toVal a + toVal b :=
  (add_spec ha hb).2

theorem sub_canon {a b : BigNum} (ha : Canon a) (hb : Canon b) : Canon (sub a b) :=
  (sub_spec ha hb).1

theorem sub_val {a b : BigNum} (ha : Canon a) (hb : Canon b) :
    toVal (sub a b) = toVal a - toVal b :=
  (sub_spec ha hb).2

/-! ### Correctness of `operator*` -/

theorem getD_set_eq {l : List ℕ} {k : ℕ} (v : ℕ) (h : k < l.length) :
    (l.set k v).getD k 0 = v := by
  induction l generalizing k with
  | nil => simp at h
  | cons x xs ih =>
    cases k with
    | zero => rfl
    | succ m => exact ih (by simpa using h)

theorem getD_set_ne {l : List ℕ} {k j : ℕ} (v : ℕ) (h : k ≠ j) :
    (l.set k v).getD j 0 = l.getD j 0 := by
  induction l generalizing k j with
  | nil => simp
  | cons x xs ih =>
    cases k with
    | zero =>
      cases j with
      | zero => exact absurd rfl h
      | succ m => rfl
    | succ m =>
      cases j with
      | zero => rfl
      | succ n => exact ih (by omega)

theorem digitsVal_set {l : List ℕ} {k : ℕ} (v : ℕ) (h : k < l.length) :
    (digitsVal (l.set k v) : ℤ) =
      (digitsVal l : ℤ) + ((v : ℤ) - l.getD k 0) * 10 ^ k := by
  induction l generalizing k with
  | nil => simp at h
  | cons x xs ih =>
    cases k with
    | zero =>
      simp only [List.set, digitsVal_cons, List.getD_cons_zero, pow_zero]
      push_cast
      ring
    | succ m =>
      have hm : m < xs.length := by simpa using h
      simp only [List.set, digitsVal_cons, List.getD_cons_succ]
      push_cast
      rw [ih hm]
      ring

theorem getD_le_digitsVal {l : List ℕ} {k : ℕ} (h : k < l.length) :
    l.getD k 0 * 10 ^ k ≤ digitsVal l := by
  induction l generalizing k with
  | nil => simp at h
  | cons x xs ih =>
    cases k with
    | zero => simp [digitsVal_cons]
    | succ m =>
      have hm : m < xs.length := by simpa using h
      have := ih hm
      simp only [List.getD_cons_succ, digitsVal_cons, pow_succ]
      calc xs.getD m 0 * (10 ^ m * 10) = (xs.getD m 0 * 10 ^ m) * 10 := by ring
        _ ≤ digitsVal xs * 10 := by omega
        _ ≤ x + 10 * digitsVal xs := by omega

theorem mulStep_eq {buf : List ℕ} {k : ℕ} (p : ℕ) (h : k + 1 < buf.length) :
    mulStep p k buf =
      (buf.set k ((buf.getD k 0 + p) % 10)).set (k + 1)
        (buf.getD (k + 1) 0 + (buf.getD k 0 + p) / 10) := by
  have hk : k < buf.length := by omega
  rw [mulStep]
  rw [getD_set_ne _ (by omega : k ≠ k + 1)]
  rw [getD_set_eq _ hk]
  rw [getD_set_ne _ (by omega : k + 1 ≠ k)]
  rw [getD_set_eq _ hk]
  rw [List.set_comm _ _ _ (by omega : k ≠ k + 1)]
  rw [List.set_set]
  rw [List.set_comm _ _ _ (by omega : k + 1 ≠ k)]

theorem mulStep_length (p k : ℕ) (buf : List ℕ) :
    (mulStep p k buf).length = buf.length := by
  rw [mulStep]
  simp

theorem mulStep_val {buf : List ℕ} {k : ℕ} (p : ℕ) (h : k + 1 < buf.length) :
    (digitsVal (mulStep p k buf) : ℤ) = digitsVal buf + p * 10 ^ k := by
  rw [mulStep_eq p h]
  have hk : k < buf.length := by omega
  have hk2 : k + 1 < (buf.set k ((buf.getD k 0 + p) % 10)).length := by simpa using h
  rw [digitsVal_set _ hk2, digitsVal_set _ hk]
  rw [getD_set_ne _ (by omega : k ≠ k + 1)]
  have hsplit : ((buf.getD k 0 + p) % 10 : ℤ) + 10 * ((buf.getD k 0 + p) / 10 : ℕ)
      = (buf.getD k 0 : ℤ) + p := by
    push_cast
    omega
  have hpow : (10 : ℤ) ^ (k + 1) = 10 ^ k * 10 := pow_succ 10 k
  push_cast
  push_cast at hsplit
  rw [hpow]
  linear_combination (10 : ℤ) ^ k * hsplit

theorem mulStep_getD_hi {buf : List ℕ} {k : ℕ} (p : ℕ) (h : k + 1 < buf.length) :
    (mulStep p k buf).getD (k + 1) 0 =
      buf.getD (k + 1) 0 + (buf.getD k 0 + p) / 10 := by
  rw [mulStep_eq p h]
  exact getD_set_eq _ (by simpa using h)

theorem mulStep_getD_lo {buf : List ℕ} {k : ℕ} (p : ℕ) (h : k + 1 < buf.length) :
    (mulStep p k buf).getD k 0 = (buf.getD k 0 + p) % 10 := by
  rw [mulStep_eq p h]
  rw [getD_set_ne _ (by omega : k + 1 ≠ k)]
  exact getD_set_eq _ (by omega)

theorem mulStep_getD_other {buf : List ℕ} {k j : ℕ} (p : ℕ) (h : k + 1 < buf.length)
    (hj1 : j ≠ k) (hj2 : j ≠ k + 1) :
    (mulStep p k buf).getD j 0 = buf.getD j 0 := by
  rw [mulStep_eq p h]
  rw [getD_set_ne _ (Ne.symm hj2), getD_set_ne _ (Ne.symm hj1)]

theorem digitsVal_drop (bs : List ℕ) {s : ℕ} (h : s < bs.length) :
    digitsVal (bs.drop s) = bs.getD s 0 + 10 * digitsVal (bs.drop (s + 1)) := by
  rw [List.drop_eq_getElem_cons h, digitsVal_cons, List.getD_eq_getElem bs 0 h]

theorem innerFold_length (as bs : List ℕ) (i : ℕ) :
    ∀ (js : List ℕ) (buf : List ℕ),
      ((js.foldl (fun acc j => mulStep (as.getD i 0 * bs.getD j 0) (i + j) acc) buf).length
        = buf.length)
  | [], buf => rfl
  | j :: js, buf => by
    rw [List.foldl_cons, innerFold_length as bs i js, mulStep_length]

theorem innerFold_val (as : List ℕ) (i : ℕ) (bs : List ℕ) :
    ∀ (n s : ℕ) (buf : List ℕ), s + n = bs.length → i + bs.length < buf.length →
      (digitsVal ((List.range' s n).foldl
          (fun acc j => mulStep (as.getD i 0 * bs.getD j 0) (i + j) acc) buf) : ℤ)
        = digitsVal buf + (as.getD i 0 : ℤ) * (digitsVal (bs.drop s) : ℤ) * 10 ^ (i + s)
  | 0, s, buf, hs, hlen => by
    have : s = bs.length := by omega
    subst this
    rw [List.drop_length]
    simp [digitsVal]
  | n + 1, s, buf, hs, hlen => by
    rw [List.range'_succ, List.foldl_cons]
    have hstep : i + s + 1 < buf.length := by omega
    have hlen2 : i + bs.length < (mulStep (as.getD i 0 * bs.getD s 0) (i + s) buf).length := by
      rw [mulStep_length]
      exact hlen
    rw [innerFold_val as i bs n (s + 1) _ (by omega) hlen2]
    rw [mulStep_val _ hstep]
    rw [digitsVal_drop bs (by omega : s < bs.length)]
    push_cast
    ring

theorem innerFold_bound (as bs : List ℕ) (i : ℕ) (hi : i < as.length) :
    ∀ (n s : ℕ) (buf : List ℕ), s + n = bs.length →
      buf.length = as.length + bs.length →
      (∀ k, k < as.length + bs.length - 1 →
        (buf.getD k 0 < 10 ∨ k = i + s ∨ (s < bs.length ∧ k = i + bs.length - 1))) →
      ∀ k, k < as.length + bs.length - 1 →
        (((List.range' s n).foldl
            (fun acc j => mulStep (as.getD i 0 * bs.getD j 0) (i + j) acc) buf).getD k 0 < 10
          ∨ k = i + bs.length)
  | 0, s, buf, hs, hlen, hinv, k, hk => by
    have : s = bs.length := by omega
    subst this
    rcases hinv k hk with h | h | h
    · exact Or.inl h
    · exact Or.inr (by omega)
    · omega
  | n + 1, s, buf, hs, hlen, hinv, k, hk => by
    rw [List.range'_succ, List.foldl_cons]
    have hstep : i + s + 1 < buf.length := by omega
    refine innerFold_bound as bs i hi n (s + 1)
      (mulStep (as.getD i 0 * bs.getD s 0) (i + s) buf) (by omega)
      (by rw [mulStep_length]; exact hlen) ?_ k hk
    intro k2 hk2
    by_cases hlo : k2 = i + s
    · subst hlo
      left
      rw [mulStep_getD_lo _ hstep]
      omega
    · by_cases hhi : k2 = i + s + 1
      · right
        left
        omega
      · rw [mulStep_getD_other _ hstep hlo hhi]
        rcases hinv k2 hk2 with h | h | h
        · exact Or.inl h
        · exact absurd h hlo
        · by_cases hfin : s + 1 < bs.length
          · exact Or.inr (Or.inr ⟨hfin, h.2⟩)
          · exfalso
            have : s + 1 = bs.length := by omega
            exact hlo (by omega)

theorem outerFold_length (as bs : List ℕ) :
    ∀ (is : List ℕ) (buf : List ℕ),
      ((is.foldl (fun acc i => (List.range bs.length).foldl
          (fun acc2 j => mulStep (as.getD i 0 * bs.getD j 0) (i + j) acc2) acc) buf).length
        = buf.length)
  | [], buf => rfl
  | i :: is, buf => by
    rw [List.foldl_cons, outerFold_length as bs is, innerFold_length]

theorem outerFold_val (as bs : List ℕ) :
    ∀ (n s : ℕ) (buf : List ℕ), s + n = as.length →
      buf.length = as.length + bs.length →
      (digitsVal ((List.range' s n).foldl
          (fun acc i => (List.range bs.length).foldl
            (fun acc2 j => mulStep (as.getD i 0 * bs.getD j 0) (i + j) acc2) acc) buf) : ℤ)
        = digitsVal buf + (digitsVal (as.drop s) : ℤ) * (digitsVal bs : ℤ) * 10 ^ s
  | 0, s, buf, hs, hlen => by
    have : s = as.length := by omega
    subst this
    rw [List.drop_length]
    simp [digitsVal]
  | n + 1, s, buf, hs, hlen => by
    rw [List.range'_succ, List.foldl_cons]
    have hinner : (digitsVal ((List.range bs.length).foldl
        (fun acc2 j => mulStep (as.getD s 0 * bs.getD j 0) (s + j) acc2) buf) : ℤ)
        = digitsVal buf + (as.getD s 0 : ℤ) * (digitsVal bs : ℤ) * 10 ^ s := by
      rw [List.range_eq_range']
      rw [innerFold_val as s bs bs.length 0 buf (by omega) (by omega)]
      rw [List.drop_zero, Nat.add_zero]
    have hlen2 : ((List.range bs.length).foldl
        (fun acc2 j => mulStep (as.getD s 0 * bs.getD j 0) (s + j) acc2) buf).length
        = as.length + bs.length := by
      rw [innerFold_length]
      exact hlen
    rw [outerFold_val as bs n (s + 1) _ (by omega) hlen2]
    rw [hinner]
    rw [digitsVal_drop as (by omega : s < as.length)]
    push_cast
    ring

theorem outerFold_bound (as bs : List ℕ) (hbs0 : 0 < bs.length) :
    ∀ (n s : ℕ) (buf : List ℕ), s + n = as.length →
      buf.length = as.length + bs.length →
      (∀ k, k < as.length + bs.length - 1 →
        (buf.getD k 0 < 10 ∨ (0 < s ∧ k = s + bs.length - 1))) →
      ∀ k, k < as.length + bs.length - 1 →
        ((List.range' s n).foldl
          (fun acc i => (List.range bs.length).foldl
            (fun acc2 j => mulStep (as.getD i 0 * bs.getD j 0) (i + j) acc2) acc)
          buf).getD k 0 < 10
  | 0, s, buf, hs, hlen, hinv, k, hk => by
    rcases hinv k hk with h | h
    · exact h
    · omega
  | n + 1, s, buf, hs, hlen, hinv, k, hk => by
    rw [List.range'_succ, List.foldl_cons]
    refine outerFold_bound as bs hbs0 n (s + 1) _ (by omega)
      (by rw [innerFold_length]; exact hlen) ?_ k hk
    intro k2 hk2
    have hib : ∀ k3, k3 < as.length + bs.length - 1 →
        (((List.range bs.length).foldl
            (fun acc2 j => mulStep (as.getD s 0 * bs.getD j 0) (s + j) acc2) buf).getD k3 0 < 10
          ∨ k3 = s + bs.length) := by
      intro k3 hk3
      rw [List.range_eq_range']
      refine innerFold_bound as bs s (by omega) bs.length 0 buf (by omega) hlen ?_ k3 hk3
      intro k4 hk4
      rcases hinv k4 hk4 with h | h
      · exact Or.inl h
      · exact Or.inr (Or.inr ⟨hbs0, by omega⟩)
    rcases hib k2 hk2 with h | h
    · exact Or.inl h
    · exact Or.inr ⟨by omega, by omega⟩

theorem getD_replicate_zero (n : ℕ) : ∀ (k : ℕ), (List.replicate n (0 : ℕ)).getD k 0 = 0 := by
  induction n with
  | zero => intro k; simp
  | succ m ih =>
    intro k
    cases k with
    | zero => rfl
    | succ k2 => exact ih k2

theorem digitsVal_replicate_zero (n : ℕ) : digitsVal (List.replicate n (0 : ℕ)) = 0 := by
  induction n with
  | zero => rfl
  | succ m ih => rw [List.replicate_succ, digitsVal_cons, ih]

theorem mulBuf_length (as bs : List ℕ) :
    (mulBuf as bs).length = as.length + bs.length := by
  rw [mulBuf, outerFold_length]
  simp

theorem mulBuf_val (as bs : List ℕ) :
    (digitsVal (mulBuf as bs) : ℤ) = (digitsVal as : ℤ) * digitsVal bs := by
  rw [mulBuf, List.range_eq_range' as.length]
  rw [outerFold_val as bs as.length 0 _ (by omega) (by simp)]
  rw [List.drop_zero, digitsVal_replicate_zero]
  push_cast
  ring

theorem mulBuf_bounded (as bs : List ℕ) (has : ∀ d ∈ as, d < 10)
    (hbs : ∀ d ∈ bs, d < 10) (hbs0 : bs ≠ []) :
    ∀ d ∈ mulBuf as bs, d < 10 := by
  have hlb : 0 < bs.length := List.length_pos.mpr hbs0
  have hlen := mulBuf_length as bs
  have hlow : ∀ k, k < as.length + bs.length - 1 → (mulBuf as bs).getD k 0 < 10 := by
    intro k hk
    rw [mulBuf, List.range_eq_range' as.length]
    refine outerFold_bound as bs hlb as.length 0 _ (by omega) (by simp) ?_ k hk
    intro k2 hk2
    left
    exact (getD_replicate_zero _ k2).trans_lt (by norm_num)
  have htop : (mulBuf as bs).getD (as.length + bs.length - 1) 0 < 10 := by
    have hin : as.length + bs.length - 1 < (mulBuf as bs).length := by omega
    have hle := getD_le_digitsVal hin
    have hva := digitsVal_lt as has
    have hvb := digitsVal_lt bs hbs
    have hval : (digitsVal (mulBuf as bs) : ℤ) = (digitsVal as : ℤ) * digitsVal bs :=
      mulBuf_val as bs
    have hprod : digitsVal (mulBuf as bs) = digitsVal as * digitsVal bs := by
      exact_mod_cast hval
    have hlt : digitsVal (mulBuf as bs) < 10 ^ (as.length + bs.length) := by
      rw [hprod]
      calc digitsVal as * digitsVal bs < 10 ^ as.length * 10 ^ bs.length := by
            apply Nat.mul_lt_mul_of_lt_of_le hva (le_of_lt hvb)
            exact Nat.pos_pow_of_pos _ (by norm_num)
        _ = 10 ^ (as.length + bs.length) := (pow_add 10 _ _).symm
    by_contra hge
    have h10 : 10 ≤ (mulBuf as bs).getD (as.length + bs.length - 1) 0 := by omega
    have : 10 * 10 ^ (as.length + bs.length - 1)
        ≤ (mulBuf as bs).getD (as.length + bs.length - 1) 0
          * 10 ^ (as.length + bs.length - 1) :=
      Nat.mul_le_mul_right _ h10
    have hsplit : 10 * 10 ^ (as.length + bs.length - 1) = 10 ^ (as.length + bs.length) := by
      conv_rhs => rw [show as.length + bs.length = (as.length + bs.length - 1) + 1 by omega]
      rw [pow_succ]
      ring
    omega
  intro d hd
  obtain ⟨k, hkl, hke⟩ := List.mem_iff_getElem.mp hd
  have : (mulBuf as bs).getD k 0 = d := by
    rw [List.getD_eq_getElem _ _ hkl]
    exact hke
  by_cases hkt : k = as.length + bs.length - 1
  · subst hkt
    omega
  · have := hlow k (by omega)
    omega

theorem mul_spec {a b : BigNum} (ha : Canon a) (hb : Canon b) :
    Canon (mul a b) ∧ toVal (mul a b) = toVal a * toVal b := by
  have hne : mulBuf a.digits b.digits ≠ [] := by
    intro h
    have := mulBuf_length a.digits b.digits
    rw [h] at this
    have h1 : 0 < a.digits.length := List.length_pos.mpr ha.1.1
    simp at this
    omega
  have hbnd := mulBuf_bounded a.digits b.digits ha.1.2.1 hb.1.2.1 hb.1.1
  constructor
  · exact fixup_canon _ hne hbnd
  · rw [mul, fixup_val]
    have hv := mulBuf_val a.digits b.digits
    cases hsa : a.is_negative <;> cases hsb : b.is_negative
    · rw [toVal_of_neg_false hsa, toVal_of_neg_false hsb, if_neg (by simp)]
      simp only [natMag]
      rw [hv]
    · rw [toVal_of_neg_false hsa, toVal_of_neg_true hsb, if_pos (by simp)]
      simp only [natMag]
      rw [hv]
      ring
    · rw [toVal_of_neg_true hsa, toVal_of_neg_false hsb, if_pos (by simp)]
      simp only [natMag]
      rw [hv]
      ring
    · rw [toVal_of_neg_true hsa, toVal_of_neg_true hsb, if_neg (by simp)]
      simp only [natMag]
      rw [hv]
      ring

theorem mul_canon {a b : BigNum} (ha : Canon a) (hb : Canon b) : Canon (mul a b) :=
  (mul_spec ha hb).1

theorem mul_val {a b : BigNum} (ha : Canon a) (hb : Canon b) :
    toVal (mul a b) = toVal a * toVal b :=
  (mul_spec ha hb).2

/-! ### Correctness of `operator/` and `operator%` -/

theorem sign_false_of_nonneg {a : BigNum} (ha : Canon a) (h : 0 ≤ toVal a) :
    a.is_negative = false := by
  cases hs : a.is_negative
  · rfl
  · have := toVal_neg_sign ha hs
    omega

theorem sign_true_of_neg {a : BigNum} (h : toVal a < 0) : a.is_negative = true := by
  cases hs : a.is_negative
  · have := toVal_nonneg_sign hs
    omega
  · rfl

theorem natMag_toVal {a : BigNum} (hs : a.is_negative = false) :
    (natMag a : ℤ) = toVal a := by
  rw [toVal_of_neg_false hs]

theorem divStepLoop_spec : ∀ (f : ℕ) (r d : BigNum), Canon r → Canon d →
    r.is_negative = false → d.is_negative = false → 0 < natMag d →
    natMag r < f * natMag d →
    (divStepLoop f r d).1 = natMag r / natMag d ∧
    Canon (divStepLoop f r d).2 ∧ (divStepLoop f r d).2.is_negative = false ∧
    natMag (divStepLoop f r d).2 = natMag r % natMag d
  | 0, r, d, hr, hd, hsr, hsd, hd0, hf => by
    exfalso
    rw [Nat.zero_mul] at hf
    omega
  | f + 1, r, d, hr, hd, hsr, hsd, hd0, hf => by
    rw [divStepLoop]
    by_cases hge : natMag d ≤ natMag r
    · have hgeb : ge r d = true := by
        rw [ge_iff hr hd, toVal_of_neg_false hsr, toVal_of_neg_false hsd]
        exact_mod_cast hge
      rw [if_pos (by simp [hgeb])]
      have hsub := sub_spec hr hd
      have hsubval : toVal (sub r d) = (natMag r : ℤ) - natMag d := by
        rw [hsub.2, toVal_of_neg_false hsr, toVal_of_neg_false hsd]
      have hsubsign : (sub r d).is_negative = false :=
        sign_false_of_nonneg hsub.1 (by rw [hsubval]; omega)
      have hsubmag : natMag (sub r d) = natMag r - natMag d := by
        have := natMag_toVal hsubsign
        rw [hsubval] at this
        omega
      have hrec := divStepLoop_spec f (sub r d) d hsub.1 hd hsubsign hsd hd0
        (by
          rw [hsubmag]
          have hexp : (f + 1) * natMag d = f * natMag d + natMag d := by ring
          omega)
      refine ⟨?_, hrec.2.1, hrec.2.2.1, ?_⟩
      · show (divStepLoop f (sub r d) d).1 + 1 = natMag r / natMag d
        rw [hrec.1, hsubmag]
        rw [Nat.div_eq_sub_div hd0 hge]
      · show natMag (divStepLoop f (sub r d) d).2 = natMag r % natMag d
        rw [hrec.2.2.2, hsubmag]
        rw [Nat.mod_eq_sub_mod hge]
    · have hltv : natMag r < natMag d := by omega
      have hgeb : ge r d = false := by
        rw [← Bool.not_eq_true]
        rw [ge_iff hr hd, toVal_of_neg_false hsr, toVal_of_neg_false hsd]
        intro hcon
        have : natMag d ≤ natMag r := by exact_mod_cast hcon
        omega
      rw [if_neg (by simp [hgeb])]
      exact ⟨(Nat.div_eq_of_lt hltv).symm, hr, hsr, (Nat.mod_eq_of_lt hltv).symm⟩

theorem foldTen_shift : ∀ (xs : List ℕ) (s : ℕ),
    xs.foldl (fun a x => a * 10 + x) s
      = s * 10 ^ xs.length + xs.foldl (fun a x => a * 10 + x) 0
  | [], s => by simp
  | x :: xs, s => by
    rw [List.foldl_cons, List.foldl_cons]
    rw [foldTen_shift xs (s * 10 + x), foldTen_shift xs (0 * 10 + x)]
    simp only [List.length_cons, pow_succ]
    ring

theorem foldTen_reverse (l : List ℕ) :
    l.reverse.foldl (fun a x => a * 10 + x) 0 = digitsVal l := by
  induction l with
  | nil => rfl
  | cons d ds ih =>
    rw [List.reverse_cons, List.foldl_append, ih, List.foldl_cons, List.foldl_nil,
      digitsVal_cons]
    ring

theorem divFold_spec (d : BigNum) (hd : Canon d) (hsd : d.is_negative = false)
    (hd0 : 0 < natMag d) :
    ∀ (xs : List ℕ), (∀ x ∈ xs, x < 10) →
    ∀ (qs : List ℕ) (r : BigNum), Canon r → r.is_negative = false → natMag r < natMag d →
      Canon (xs.foldl (divFoldStep d) (qs, r)).2 ∧
      (xs.foldl (divFoldStep d) (qs, r)).2.is_negative = false ∧
      natMag (xs.foldl (divFoldStep d) (qs, r)).2 < natMag d ∧
      (xs.foldl (divFoldStep d) (qs, r)).1.length = xs.length + qs.length ∧
      (∀ y ∈ (xs.foldl (divFoldStep d) (qs, r)).1, y ∈ qs ∨ y < 10) ∧
      ∃ qv : ℕ, qv < 10 ^ xs.length ∧
        digitsVal (xs.foldl (divFoldStep d) (qs, r)).1
          = qv + 10 ^ xs.length * digitsVal qs ∧
        xs.foldl (fun a x => a * 10 + x) (natMag r)
          = qv * natMag d + natMag (xs.foldl (divFoldStep d) (qs, r)).2
  | [], hxs, qs, r, hr, hsr, hrlt => by
    refine ⟨hr, hsr, hrlt, by simp, fun y hy => Or.inl hy,
      0, by norm_num, by simp, by simp⟩
  | x :: xs, hxs, qs, r, hr, hsr, hrlt => by
    have hx10 : x < 10 := hxs x (by simp)
    set r1 := add (mul r (ofInt 10)) (ofInt x) with hr1def
    have hmulspec := mul_spec hr (ofInt_canon 10)
    have hr1spec := add_spec hmulspec.1 (ofInt_canon (x : ℤ))
    have hr1val : toVal r1 = (natMag r : ℤ) * 10 + x := by
      rw [hr1def, hr1spec.2, hmulspec.2, ofInt_val, ofInt_val, toVal_of_neg_false hsr]
    have hr1sign : r1.is_negative = false :=
      sign_false_of_nonneg hr1spec.1 (by rw [hr1val]; positivity)
    have hr1mag : natMag r1 = natMag r * 10 + x := by
      have := natMag_toVal hr1sign
      rw [hr1val] at this
      exact_mod_cast this
    have hfuel : natMag r1 < 11 * natMag d := by
      rw [hr1mag]
      omega
    have hloop := divStepLoop_spec 11 r1 d hr1spec.1 hd hr1sign hsd hd0 hfuel
    have hc10 : (divStepLoop 11 r1 d).1 < 10 := by
      rw [hloop.1, hr1mag]
      have h1 : natMag r * 10 + x < 10 * natMag d := by omega
      by_contra hcon
      have h2 : 10 ≤ (natMag r * 10 + x) / natMag d := by omega
      have := Nat.div_mul_le_self (natMag r * 10 + x) (natMag d)
      have h3 : 10 * natMag d ≤ ((natMag r * 10 + x) / natMag d) * natMag d :=
        Nat.mul_le_mul_right _ h2
      omega
    have hr2lt : natMag (divStepLoop 11 r1 d).2 < natMag d := by
      rw [hloop.2.2.2]
      exact Nat.mod_lt _ hd0
    have hrec := divFold_spec d hd hsd hd0 xs (fun y hy => hxs y (by simp [hy]))
      ((divStepLoop 11 r1 d).1 :: qs) (divStepLoop 11 r1 d).2
      hloop.2.1 hloop.2.2.1 hr2lt
    rw [List.foldl_cons]
    have hstep : divFoldStep d (qs, r) x
        = ((divStepLoop 11 r1 d).1 :: qs, (divStepLoop 11 r1 d).2) := rfl
    rw [hstep]
    obtain ⟨hcanon2, hsign2, hlt2, hlen2, hmem2, qv, hqv, hdig2, hfold2⟩ := hrec
    refine ⟨hcanon2, hsign2, hlt2,
      by simp only [List.length_cons] at hlen2 ⊢; omega, ?_, ?_⟩
    · intro y hy
      rcases hmem2 y hy with hq | h10
      · rcases List.mem_cons.mp hq with he | hq2
        · right
          rw [he]
          exact hc10
        · exact Or.inl hq2
      · exact Or.inr h10
    · refine ⟨qv + (divStepLoop 11 r1 d).1 * 10 ^ xs.length, ?_, ?_, ?_⟩
      · have : (divStepLoop 11 r1 d).1 * 10 ^ xs.length ≤ 9 * 10 ^ xs.length :=
          Nat.mul_le_mul_right _ (by omega)
        calc qv + (divStepLoop 11 r1 d).1 * 10 ^ xs.length
            ≤ qv + 9 * 10 ^ xs.length := by omega
          _ < 10 ^ xs.length + 9 * 10 ^ xs.length := by omega
          _ = 10 ^ (x :: xs).length := by
              simp only [List.length_cons, pow_succ]
              ring
      · rw [hdig2, digitsVal_cons]
        simp only [List.length_cons, pow_succ]
        ring
      · rw [List.foldl_cons]
        rw [foldTen_shift xs (natMag r * 10 + x)]
        rw [foldTen_shift xs (natMag (divStepLoop 11 r1 d).2)] at hfold2
        have hsplit : natMag r * 10 + x = (divStepLoop 11 r1 d).1 * natMag d
            + natMag (divStepLoop 11 r1 d).2 := by
          rw [← hr1mag, hloop.1, hloop.2.2.2, Nat.mul_comm]
          exact (Nat.div_add_mod _ _).symm
        zify at hfold2 hsplit ⊢
        linear_combination hfold2 + (10 : ℤ) ^ xs.length * hsplit

theorem mk_false_canon {a : BigNum} (ha : Canon a) : Canon (⟨a.digits, false⟩ : BigNum) :=
  ⟨ha.1, fun _ => rfl⟩

theorem ofInt_zero_digits : (ofInt 0).digits = [0] := rfl

theorem ofInt_zero_sign : (ofInt 0).is_negative = false := rfl

theorem divRaw_spec {a b : BigNum} (ha : Canon a) (hb : Canon b) (hb0 : isZero b = false) :
    Canon (divRaw a b) ∧
      toVal (divRaw a b) = (if (a.is_negative != b.is_negative) = true
        then -((natMag a / natMag b : ℕ) : ℤ) else ((natMag a / natMag b : ℕ) : ℤ)) := by
  have hmb : 0 < natMag b :=
    natMag_pos_of_ne_zero hb (fun h => by rw [isZero_iff_digits.mpr h] at hb0; exact absurd hb0 (by simp))
  by_cases hza : isZero a = true
  · rw [divRaw, if_pos (by simp [hza])]
    have hma : natMag a = 0 := by
      rw [natMag, isZero_iff_digits.mp hza]
      rfl
    rw [hma, Nat.zero_div]
    refine ⟨ofInt_canon 0, ?_⟩
    rw [ofInt_val]
    split <;> norm_num
  · have hza2 : isZero a = false := by
      cases h : isZero a
      · rfl
      · exact absurd h hza
    by_cases hltd : natMag a < natMag b
    · have hlt : lt (⟨a.digits, false⟩ : BigNum) ⟨b.digits, false⟩ = true := by
        rw [lt_iff (mk_false_canon ha) (mk_false_canon hb)]
        rw [toVal_mk_false, toVal_mk_false]
        exact_mod_cast hltd
      rw [divRaw, if_neg (by simp [hza2]), if_pos (by simp [hlt])]
      rw [Nat.div_eq_of_lt hltd]
      refine ⟨ofInt_canon 0, ?_⟩
      rw [ofInt_val]
      split <;> norm_num
    · have hlt : lt (⟨a.digits, false⟩ : BigNum) ⟨b.digits, false⟩ = false := by
        rw [← Bool.not_eq_true, lt_iff (mk_false_canon ha) (mk_false_canon hb)]
        rw [toVal_mk_false, toVal_mk_false]
        intro hcon
        exact hltd (by exact_mod_cast hcon)
      rw [divRaw, if_neg (by simp [hza2]), if_neg (by simp [hlt])]
      have hrcanon : Canon (ofInt 0) := ofInt_canon 0
      have hr0 : natMag (ofInt 0) < natMag (⟨b.digits, false⟩ : BigNum) := by
        show natMag (ofInt 0) < natMag b
        have : natMag (ofInt 0) = 0 := by rw [natMag, ofInt_zero_digits]; rfl
        omega
      obtain ⟨hc2, hs2, hlt2, hlen2, hmem2, qv, hqv, hdig, hfold⟩ :=
        divFold_spec (⟨b.digits, false⟩ : BigNum) (mk_false_canon hb) rfl hmb
          a.digits.reverse (fun x hx => ha.1.2.1 x (List.mem_reverse.mp hx))
          [0] (ofInt 0) hrcanon rfl hr0
      have hfold2 : natMag a = qv * natMag b
          + natMag (a.digits.reverse.foldl (divFoldStep ⟨b.digits, false⟩) ([0], ofInt 0)).2 := by
        have hz : natMag (ofInt 0) = 0 := by rw [natMag, ofInt_zero_digits]; rfl
        rw [hz] at hfold
        have h1 : natMag a = List.foldl (fun acc x => acc * 10 + x) 0 a.digits.reverse :=
          (foldTen_reverse a.digits).symm
        rw [h1, hfold]
        rfl
      have hqv2 : qv = natMag a / natMag b := by
        rw [hfold2, Nat.mul_comm, Nat.mul_add_div hmb]
        have hz2 : natMag (a.digits.reverse.foldl (divFoldStep ⟨b.digits, false⟩)
            ([0], ofInt 0)).2 / natMag b = 0 := Nat.div_eq_of_lt hlt2
        rw [hz2]
        omega
      have hdig2 : digitsVal (a.digits.reverse.foldl (divFoldStep ⟨b.digits, false⟩)
          ([0], ofInt 0)).1 = qv := by
        rw [hdig]
        simp [digitsVal]
      have hne : (a.digits.reverse.foldl (divFoldStep ⟨b.digits, false⟩)
          ([0], ofInt 0)).1 ≠ [] := by
        intro hcon
        rw [hcon] at hlen2
        simp at hlen2
      have hbnd : ∀ y ∈ (a.digits.reverse.foldl (divFoldStep ⟨b.digits, false⟩)
          ([0], ofInt 0)).1, y < 10 := by
        intro y hy
        rcases hmem2 y hy with h | h
        · simp at h
          omega
        · exact h
      refine ⟨fixup_canon _ hne hbnd, ?_⟩
      rw [fixup_val, hdig2, hqv2]

theorem divRaw_canon {a b : BigNum} (ha : Canon a) (hb : Canon b) (hb0 : isZero b = false) :
    Canon (divRaw a b) := (divRaw_spec ha hb hb0).1

theorem divRaw_val_nonneg {a b : BigNum} (ha : Canon a) (hb : Canon b)
    (hb0 : isZero b = false) (hsa : a.is_negative = false) (hsb : b.is_negative = false) :
    toVal (divRaw a b) = ((natMag a / natMag b : ℕ) : ℤ) := by
  rw [(divRaw_spec ha hb hb0).2, if_neg (by rw [hsa, hsb]; simp)]

theorem abs_toVal (a : BigNum) : |toVal a| = (natMag a : ℤ) := by
  cases hs : a.is_negative
  · rw [toVal_of_neg_false hs]
    exact abs_of_nonneg (by positivity)
  · rw [toVal_of_neg_true hs]
    rw [abs_neg]
    exact abs_of_nonneg (by positivity)

theorem natMag_pos_of_isZero_false {b : BigNum} (hb : Canon b) (hb0 : isZero b = false) :
    0 < natMag b :=
  natMag_pos_of_ne_zero hb
    (fun h => by rw [isZero_iff_digits.mpr h] at hb0; exact absurd hb0 (by simp))

theorem toVal_ne_zero {b : BigNum} (hb : Canon b) (hb0 : isZero b = false) :
    toVal b ≠ 0 := by
  intro h
  have h1 := abs_toVal b
  rw [h] at h1
  have h2 := natMag_pos_of_isZero_false hb hb0
  simp at h1
  omega

theorem int_emod_eq {x v M : ℤ} (h0 : 0 ≤ v) (h1 : v < M) (hd : M ∣ (x - v)) :
    x % M = v := by
  have h2 : x % M = v % M :=
    Int.emod_eq_emod_iff_emod_sub_eq_zero.mpr (Int.emod_eq_zero_of_dvd hd)
  rw [h2, Int.emod_eq_of_lt h0 h1]

theorem divMod_cast_split (a b : BigNum) :
    ((natMag a / natMag b : ℕ) : ℤ) * (natMag b : ℤ) + ((natMag a % natMag b : ℕ) : ℤ)
      = (natMag a : ℤ) := by
  have h : natMag a / natMag b * natMag b + natMag a % natMag b = natMag a := by
    rw [Nat.mul_comm]
    exact Nat.div_add_mod _ _
  exact_mod_cast h

theorem mulQB_val {a b : BigNum} (ha : Canon a) (hb : Canon b) (hb0 : isZero b = false) :
    toVal (mul (divRaw a b) b)
      = (if a.is_negative = true then (-1 : ℤ) else 1)
        * ((natMag a / natMag b : ℕ) : ℤ) * (natMag b : ℤ) := by
  rw [mul_val (divRaw_canon ha hb hb0) hb, (divRaw_spec ha hb hb0).2]
  cases hsa : a.is_negative <;> cases hsb : b.is_negative
  · rw [if_neg (show ¬(((false : Bool) != false) = true) by simp),
      if_neg (show ¬((false : Bool) = true) by simp), toVal_of_neg_false hsb]
    ring
  · rw [if_pos (show (((false : Bool) != true) = true) by simp),
      if_neg (show ¬((false : Bool) = true) by simp), toVal_of_neg_true hsb]
    ring
  · rw [if_pos (show (((true : Bool) != false) = true) by simp),
      if_pos (show ((true : Bool) = true) by simp), toVal_of_neg_false hsb]
    ring
  · rw [if_neg (show ¬(((true : Bool) != true) = true) by simp),
      if_pos (show ((true : Bool) = true) by simp), toVal_of_neg_true hsb]
    ring

theorem subAQB_val {a b : BigNum} (ha : Canon a) (hb : Canon b) (hb0 : isZero b = false) :
    toVal (sub a (mul (divRaw a b) b))
      = (if a.is_negative = true then (-1 : ℤ) else 1)
        * ((natMag a % natMag b : ℕ) : ℤ) := by
  rw [sub_val ha (mul_canon (divRaw_canon ha hb hb0) hb), mulQB_val ha hb hb0]
  have hsplit := divMod_cast_split a b
  cases hsa : a.is_negative
  · rw [toVal_of_neg_false hsa,
      if_neg (show ¬((false : Bool) = true) by simp)]
    linear_combination -hsplit
  · rw [toVal_of_neg_true hsa, if_pos (show ((true : Bool) = true) by simp)]
    linear_combination hsplit

theorem modRaw_spec {a b : BigNum} (ha : Canon a) (hb : Canon b) (hb0 : isZero b = false) :
    Canon (modRaw a b) ∧ toVal (modRaw a b) = toVal a % toVal b := by
  have hmb : 0 < natMag b := natMag_pos_of_isZero_false hb hb0
  have hqc : Canon (mul (divRaw a b) b) := mul_canon (divRaw_canon ha hb hb0) hb
  have hrc : Canon (sub a (mul (divRaw a b) b)) := sub_canon ha hqc
  have hrv := subAQB_val ha hb hb0
  have hmod_lt : natMag a % natMag b < natMag b := Nat.mod_lt _ hmb
  have habs : toVal a % toVal b = toVal a % (natMag b : ℤ) := by
    cases hsb : b.is_negative
    · rw [toVal_of_neg_false hsb]
    · rw [toVal_of_neg_true hsb, Int.emod_neg]
  have hb_abs_val : toVal (if b.is_negative = true then neg b else b) = (natMag b : ℤ) := by
    cases hsb : b.is_negative
    · rw [if_neg (by simp), toVal_of_neg_false hsb]
    · rw [if_pos rfl, neg_val hb, toVal_of_neg_true hsb]
      ring
  have hdvd : (natMag b : ℤ) ∣ ((natMag a : ℤ) - ((natMag a % natMag b : ℕ) : ℤ)) := by
    refine ⟨((natMag a / natMag b : ℕ) : ℤ), ?_⟩
    linear_combination -divMod_cast_split a b
  rw [modRaw]
  cases hsa : a.is_negative
  · have hrv2 : toVal (sub a (mul (divRaw a b) b)) = ((natMag a % natMag b : ℕ) : ℤ) := by
      rw [hrv, hsa, if_neg (show ¬((false : Bool) = true) by simp)]
      ring
    have hsr : (sub a (mul (divRaw a b) b)).is_negative = false :=
      sign_false_of_nonneg hrc (by rw [hrv2]; positivity)
    rw [if_neg (by simp [hsr])]
    refine ⟨hrc, ?_⟩
    rw [hrv2, habs, toVal_of_neg_false hsa]
    symm
    apply int_emod_eq (by positivity) (by exact_mod_cast hmod_lt)
    exact hdvd
  · have hrv2 : toVal (sub a (mul (divRaw a b) b)) = -((natMag a % natMag b : ℕ) : ℤ) := by
      rw [hrv, hsa, if_pos (show ((true : Bool) = true) from rfl)]
      ring
    by_cases hz : natMag a % natMag b = 0
    · have hrv3 : toVal (sub a (mul (divRaw a b) b)) = 0 := by
        rw [hrv2, hz]
        norm_num
      have hsr : (sub a (mul (divRaw a b) b)).is_negative = false :=
        sign_false_of_nonneg hrc (by rw [hrv3])
      rw [if_neg (by simp [hsr])]
      refine ⟨hrc, ?_⟩
      rw [hrv3, habs, toVal_of_neg_true hsa]
      symm
      apply int_emod_eq le_rfl (by exact_mod_cast hmb)
      have hdvd2 : (natMag b : ℤ) ∣ (natMag a : ℤ) := by
        refine ⟨((natMag a / natMag b : ℕ) : ℤ), ?_⟩
        have hzc : ((natMag a % natMag b : ℕ) : ℤ) = 0 := by exact_mod_cast hz
        linear_combination -divMod_cast_split a b + hzc
      simpa using dvd_neg.mpr hdvd2
    · have hrneg : toVal (sub a (mul (divRaw a b) b)) < 0 := by
        rw [hrv2]
        have : (0 : ℤ) < ((natMag a % natMag b : ℕ) : ℤ) := by
          exact_mod_cast Nat.pos_of_ne_zero hz
        omega
      have hsr : (sub a (mul (divRaw a b) b)).is_negative = true := sign_true_of_neg hrneg
      rw [if_pos (by simp [hsr])]
      have haddc : Canon (add (sub a (mul (divRaw a b) b))
          (if b.is_negative = true then neg b else b)) := by
        apply add_canon hrc
        cases hsb : b.is_negative
        · simpa [hsb] using hb
        · rw [if_pos rfl]
          exact neg_canon hb
      refine ⟨haddc, ?_⟩
      have haddv : toVal (add (sub a (mul (divRaw a b) b))
          (if b.is_negative = true then neg b else b))
          = -(((natMag a % natMag b : ℕ) : ℤ)) + (natMag b : ℤ) := by
        rw [add_val hrc]
        · rw [hrv2, hb_abs_val]
        · cases hsb : b.is_negative
          · simpa [hsb] using hb
          · rw [if_pos rfl]
            exact neg_canon hb
      rw [haddv, habs, toVal_of_neg_true hsa]
      symm
      apply int_emod_eq
      · have : ((natMag a % natMag b : ℕ) : ℤ) < (natMag b : ℤ) := by exact_mod_cast hmod_lt
        omega
      · have : (0 : ℤ) < ((natMag a % natMag b : ℕ) : ℤ) := by
          exact_mod_cast Nat.pos_of_ne_zero hz
        omega
      · have h1 : -(natMag a : ℤ) - (-(((natMag a % natMag b : ℕ) : ℤ)) + (natMag b : ℤ))
            = -((natMag a : ℤ) - ((natMag a % natMag b : ℕ) : ℤ)) - (natMag b : ℤ) := by
          ring
        rw [h1]
        exact dvd_sub (dvd_neg.mpr hdvd) dvd_rfl

theorem modRaw_canon {a b : BigNum} (ha : Canon a) (hb : Canon b) (hb0 : isZero b = false) :
    Canon (modRaw a b) := (modRaw_spec ha hb hb0).1

theorem modRaw_val {a b : BigNum} (ha : Canon a) (hb : Canon b) (hb0 : isZero b = false) :
    toVal (modRaw a b) = toVal a % toVal b := (modRaw_spec ha hb hb0).2

theorem modRaw_nonneg {a b : BigNum} (ha : Canon a) (hb : Canon b) (hb0 : isZero b = false) :
    0 ≤ toVal (modRaw a b) := by
  rw [modRaw_val ha hb hb0]
  exact Int.emod_nonneg _ (toVal_ne_zero hb hb0)

theorem modRaw_lt_abs {a b : BigNum} (ha : Canon a) (hb : Canon b) (hb0 : isZero b = false) :
    toVal (modRaw a b) < |toVal b| := by
  rw [modRaw_val ha hb hb0]
  rcases lt_or_gt_of_ne (toVal_ne_zero hb hb0) with hneg | hpos
  · have h1 : toVal a % toVal b = toVal a % (-toVal b) := by
      rw [Int.emod_neg]
    rw [h1, abs_of_neg hneg]
    exact Int.emod_lt_of_pos _ (by omega)
  · rw [abs_of_pos hpos]
    exact Int.emod_lt_of_pos _ hpos

theorem modRaw_sign {a b : BigNum} (ha : Canon a) (hb : Canon b) (hb0 : isZero b = false) :
    (modRaw a b).is_negative = false :=
  sign_false_of_nonneg (modRaw_canon ha hb hb0) (modRaw_nonneg ha hb hb0)

theorem modRaw_mag_lt {a b : BigNum} (ha : Canon a) (hb : Canon b) (hb0 : isZero b = false) :
    natMag (modRaw a b) < natMag b := by
  have h1 := modRaw_lt_abs ha hb hb0
  rw [abs_toVal] at h1
  have h2 := natMag_toVal (modRaw_sign ha hb hb0)
  omega

/-! ### The `Except` wrappers for `/` and `%` -/

theorem div_ok {a b : BigNum} (hb0 : isZero b = false) : div a b = .ok (divRaw a b) := by
  rw [div, if_neg (by simp [hb0])]

theorem div_err {a b : BigNum} (hb0 : isZero b = true) :
    div a b = .error .divisionByZero := by
  rw [div, if_pos (by simp [hb0])]

theorem mod_ok {a b : BigNum} (hb0 : isZero b = false) : mod a b = .ok (modRaw a b) := by
  rw [mod, if_neg (by simp [hb0])]

theorem mod_err {a b : BigNum} (hb0 : isZero b = true) :
    mod a b = .error .divisionByZero := by
  rw [mod, if_pos (by simp [hb0])]

/-! ### `powMod` -/

theorem digitsVal_parity (l : List ℕ) : digitsVal l % 2 = l.headD 0 % 2 := by
  cases l with
  | nil => rfl
  | cons d ds =>
    rw [digitsVal_cons]
    simp only [List.headD_cons]
    omega

theorem natDigits_one : natDigits 1 = [1] := by
  rw [natDigits]
  norm_num [natDigits_zero]

theorem natDigits_two : natDigits 2 = [2] := by
  rw [natDigits]
  norm_num [natDigits_zero]

theorem ofInt_digits {n : ℤ} (hn : n ≠ 0) : (ofInt n).digits = natDigits n.natAbs := by
  rw [ofInt, if_neg hn]

theorem ofInt_sign {n : ℤ} (hn : n ≠ 0) : (ofInt n).is_negative = decide (n < 0) := by
  rw [ofInt, if_neg hn]

theorem isZero_ofInt {n : ℤ} (hn : n ≠ 0) : isZero (ofInt n) = false := by
  rw [isZero]
  simp only [decide_eq_false_iff_not]
  rw [ofInt_digits hn]
  intro h2
  have hv := natDigits_val n.natAbs
  rw [h2] at hv
  simp [digitsVal] at hv
  exact (Int.natAbs_ne_zero.mpr hn) hv.symm

theorem isZero_ofInt_two : isZero (ofInt 2) = false := isZero_ofInt (by norm_num)

theorem natMag_ofInt (n : ℤ) : natMag (ofInt n) = n.natAbs := by
  have habs := abs_toVal (ofInt n)
  rw [ofInt_val, Int.abs_eq_natAbs] at habs
  exact_mod_cast habs.symm

theorem divRaw_two_mag {e : BigNum} (he : Canon e) :
    natMag (divRaw e (ofInt 2)) = natMag e / 2 := by
  have h := (divRaw_spec he (ofInt_canon 2) isZero_ofInt_two).2
  have hmag2 : natMag (ofInt 2) = 2 := by
    rw [natMag_ofInt]
    rfl
  rw [hmag2] at h
  have habs := abs_toVal (divRaw e (ofInt 2))
  rw [h] at habs
  split at habs
  · rw [abs_neg, abs_of_nonneg (by positivity)] at habs
    exact_mod_cast habs.symm
  · rw [abs_of_nonneg (by positivity)] at habs
    exact_mod_cast habs.symm

theorem isZero_false_of_ge_two {m : BigNum} (hm : Canon m) (h2 : 2 ≤ toVal m) :
    isZero m = false := by
  cases h : isZero m
  · rfl
  · have := (isZero_iff_val hm).mp h
    omega

theorem isOne_iff_val {m : BigNum} (hm : Canon m) : isOne m = true ↔ toVal m = 1 := by
  constructor
  · intro h
    rw [isOne] at h
    simp at h
    rw [toVal_of_neg_false h.1]
    rw [natMag, h.2]
    rfl
  · intro h
    have h1 : toVal (ofInt 1) = 1 := ofInt_val 1
    have heq := toVal_inj hm (ofInt_canon 1) (by rw [h, h1])
    rw [heq, isOne, ofInt_digits (by norm_num), ofInt_sign (by norm_num)]
    rw [show Int.natAbs 1 = 1 from rfl, natDigits_one]
    decide

theorem mulModRaw_canon {x y m : BigNum} (hx : Canon x) (hy : Canon y) (hm : Canon m)
    (hm0 : isZero m = false) : Canon (mulModRaw x y m) :=
  modRaw_canon (mul_canon hx hy) hm hm0

theorem powModLoop_canon : ∀ (f : ℕ) (r bb e m : BigNum), Canon r → Canon bb → Canon e →
    Canon m → isZero m = false → Canon (powModLoop f r bb e m)
  | 0, r, bb, e, m, hr, hbb, he, hm, hm0 => hr
  | f + 1, r, bb, e, m, hr, hbb, he, hm, hm0 => by
    rw [powModLoop]
    split
    · exact hr
    · apply powModLoop_canon f _ _ _ _ _ (mulModRaw_canon hbb hbb hm hm0)
        (divRaw_canon he (ofInt_canon 2) isZero_ofInt_two) hm hm0
      split
      · exact mulModRaw_canon hr hbb hm hm0
      · exact hr

theorem powModLoop_spec : ∀ (f : ℕ) (r bb e m : BigNum), Canon r → Canon bb → Canon e →
    Canon m → 2 ≤ toVal m → 0 ≤ toVal r → toVal r < toVal m →
    0 ≤ toVal bb → toVal bb < toVal m → natMag e < f →
    toVal (powModLoop f r bb e m) = (toVal r * toVal bb ^ natMag e) % toVal m
  | 0, r, bb, e, m, hr, hbb, he, hm, hm2, hr0, hrm, hb0, hbm, hf => by omega
  | f + 1, r, bb, e, m, hr, hbb, he, hm, hm2, hr0, hrm, hb0, hbm, hf => by
    have hm0 : isZero m = false := isZero_false_of_ge_two hm hm2
    rw [powModLoop]
    by_cases hze : isZero e = true
    · rw [if_pos (by simp [hze])]
      have : natMag e = 0 := by
        rw [natMag, isZero_iff_digits.mp hze]
        rfl
      rw [this, pow_zero, mul_one]
      exact (Int.emod_eq_of_lt hr0 hrm).symm
    · rw [if_neg (by simp [hze])]
      have hze2 : e.digits ≠ [0] := fun h => hze (isZero_iff_digits.mpr h)
      have hk1 : 0 < natMag e := natMag_pos_of_ne_zero he hze2
      have he2 : Canon (divRaw e (ofInt 2)) := divRaw_canon he (ofInt_canon 2) isZero_ofInt_two
      have hmag2 : natMag (divRaw e (ofInt 2)) = natMag e / 2 := divRaw_two_mag he
      have hb2c : Canon (mulModRaw bb bb m) := mulModRaw_canon hbb hbb hm hm0
      have hb2v : toVal (mulModRaw bb bb m) = (toVal bb * toVal bb) % toVal m :=
        modRaw_val (mul_canon hbb hbb) hm hm0 |>.trans (by rw [mul_val hbb hbb])
      have hb2n : 0 ≤ toVal (mulModRaw bb bb m) := by
        rw [hb2v]
        exact Int.emod_nonneg _ (by omega)
      have hb2m : toVal (mulModRaw bb bb m) < toVal m := by
        rw [hb2v]
        exact Int.emod_lt_of_pos _ (by omega)
      have hparity : e.digits.headD 0 % 2 = natMag e % 2 := (digitsVal_parity e.digits).symm
      set r2 := if e.digits.headD 0 % 2 = 1 then mulModRaw r bb m else r with hr2def
      have hr2c : Canon r2 := by
        rw [hr2def]
        split
        · exact mulModRaw_canon hr hbb hm hm0
        · exact hr
      have hr2v : toVal r2 = (toVal r * toVal bb ^ (natMag e % 2)) % toVal m := by
        rw [hr2def]
        by_cases hpar : e.digits.headD 0 % 2 = 1
        · rw [if_pos hpar]
          rw [mulModRaw, modRaw_val (mul_canon hr hbb) hm hm0, mul_val hr hbb]
          rw [← hparity, hpar, pow_one]
        · rw [if_neg hpar]
          have : natMag e % 2 = 0 := by omega
          rw [this, pow_zero, mul_one]
          exact (Int.emod_eq_of_lt hr0 hrm).symm
      have hr2n : 0 ≤ toVal r2 := by
        rw [hr2v]
        exact Int.emod_nonneg _ (by omega)
      have hr2m : toVal r2 < toVal m := by
        rw [hr2v]
        exact Int.emod_lt_of_pos _ (by omega)
      have hfuel : natMag (divRaw e (ofInt 2)) < f := by
        rw [hmag2]
        omega
      rw [powModLoop_spec f r2 (mulModRaw bb bb m) (divRaw e (ofInt 2)) m hr2c hb2c he2 hm
        hm2 hr2n hr2m hb2n hb2m hfuel]
      rw [hmag2, hr2v, hb2v]
      have h1 : (toVal r * toVal bb ^ (natMag e % 2)) % toVal m
          ≡ toVal r * toVal bb ^ (natMag e % 2) [ZMOD toVal m] :=
        Int.emod_emod_of_dvd _ dvd_rfl
      have h2 : (toVal bb * toVal bb) % toVal m ≡ toVal bb * toVal bb [ZMOD toVal m] :=
        Int.emod_emod_of_dvd _ dvd_rfl
      have h3 := h1.mul (h2.pow (natMag e / 2))
      have h4 : toVal r * toVal bb ^ (natMag e % 2) * (toVal bb * toVal bb) ^ (natMag e / 2)
          = toVal r * toVal bb ^ natMag e := by
        have hbb2 : toVal bb * toVal bb = toVal bb ^ 2 := by ring
        have hexp : natMag e % 2 + 2 * (natMag e / 2) = natMag e := by omega
        calc toVal r * toVal bb ^ (natMag e % 2) * (toVal bb * toVal bb) ^ (natMag e / 2)
            = toVal r * (toVal bb ^ (natMag e % 2) * (toVal bb ^ 2) ^ (natMag e / 2)) := by
              rw [hbb2]
              ring
          _ = toVal r * toVal bb ^ (natMag e % 2 + 2 * (natMag e / 2)) := by
              rw [← pow_mul, ← pow_add]
          _ = toVal r * toVal bb ^ natMag e := by rw [hexp]
      rw [← h4]
      exact h3

theorem powMod_spec {a e m : BigNum} (ha : Canon a) (he : Canon e) (hm : Canon m)
    (hm2 : 2 ≤ toVal m) :
    ∃ r, powMod a e m = .ok r ∧ Canon r ∧
      toVal r = (toVal a ^ natMag e) % toVal m := by
  have hm0 : isZero m = false := isZero_false_of_ge_two hm hm2
  have hnotone : isOne m = false := by
    cases h : isOne m
    · rfl
    · have := (isOne_iff_val hm).mp h
      omega
  have hbase : Canon (modRaw a m) := modRaw_canon ha hm hm0
  have hbasev : toVal (modRaw a m) = toVal a % toVal m := modRaw_val ha hm hm0
  refine ⟨powModLoop (natMag e + 1) (ofInt 1) (modRaw a m) e m, ?_, ?_, ?_⟩
  · rw [powMod, if_neg (by simp [hnotone]), mod_ok hm0]
  · exact powModLoop_canon _ _ _ _ _ (ofInt_canon 1) hbase he hm hm0
  · rw [powModLoop_spec (natMag e + 1) (ofInt 1) (modRaw a m) e m (ofInt_canon 1) hbase he hm
      hm2 (by rw [ofInt_val]; norm_num) (by rw [ofInt_val]; omega)
      (by rw [hbasev]; exact Int.emod_nonneg _ (by omega))
      (by rw [hbasev]; exact Int.emod_lt_of_pos _ (by omega)) (by omega)]
    rw [ofInt_val, one_mul, hbasev]
    have h1 : toVal a % toVal m ≡ toVal a [ZMOD toVal m] := Int.emod_emod_of_dvd _ dvd_rfl
    exact h1.pow (natMag e)

/-! ### `extendedGCD` and `modInverse` -/

theorem toVal_eq_cast_of_nonneg {a : BigNum} (ha : Canon a) (h : 0 ≤ toVal a) :
    toVal a = (natMag a : ℤ) :=
  (natMag_toVal (sign_false_of_nonneg ha h)).symm

theorem extendedGCD_succ {f : ℕ} {a b : BigNum} (hb : isZero b = false) :
    extendedGCD (f + 1) a b
      = ((extendedGCD f b (modRaw a b)).1, (extendedGCD f b (modRaw a b)).2.2,
          sub (extendedGCD f b (modRaw a b)).2.1
            (mul (divRaw a b) (extendedGCD f b (modRaw a b)).2.2)) := by
  rw [extendedGCD, if_neg (by simp [hb])]

theorem extendedGCD_canon : ∀ (f : ℕ) (a b : BigNum), Canon a → Canon b →
    Canon (extendedGCD f a b).1 ∧ Canon (extendedGCD f a b).2.1 ∧
      Canon (extendedGCD f a b).2.2
  | 0, a, b, ha, hb => ⟨ha, ofInt_canon 1, ofInt_canon 0⟩
  | f + 1, a, b, ha, hb => by
    by_cases hz : isZero b = true
    · rw [extendedGCD, if_pos (by simp [hz])]
      exact ⟨ha, ofInt_canon 1, ofInt_canon 0⟩
    · have hz2 : isZero b = false := by
        cases h : isZero b
        · rfl
        · exact absurd h hz
      rw [extendedGCD_succ hz2]
      have hrec := extendedGCD_canon f b (modRaw a b) hb (modRaw_canon ha hb hz2)
      exact ⟨hrec.1, hrec.2.2,
        sub_canon hrec.2.1 (mul_canon (divRaw_canon ha hb hz2) hrec.2.2)⟩

theorem extendedGCD_spec : ∀ (f : ℕ) (a b : BigNum), Canon a → Canon b → natMag b < f →
    0 ≤ toVal a → 0 ≤ toVal b →
    toVal (extendedGCD f a b).1 = Nat.gcd (natMag b) (natMag a) ∧
    toVal a * toVal (extendedGCD f a b).2.1 + toVal b * toVal (extendedGCD f a b).2.2
      = toVal (extendedGCD f a b).1
  | 0, a, b, ha, hb, hf, ha0, hb0 => absurd hf (by omega)
  | f + 1, a, b, ha, hb, hf, ha0, hb0 => by
    by_cases hz : isZero b = true
    · rw [extendedGCD, if_pos (by simp [hz])]
      have hmb : natMag b = 0 := by
        rw [natMag, isZero_iff_digits.mp hz]
        rfl
      constructor
      · show toVal a = (Nat.gcd (natMag b) (natMag a) : ℕ)
        rw [hmb, Nat.gcd_zero_left]
        exact toVal_eq_cast_of_nonneg ha ha0
      · show toVal a * toVal (ofInt 1) + toVal b * toVal (ofInt 0) = toVal a
        rw [ofInt_val, ofInt_val]
        ring
    · have hz2 : isZero b = false := by
        cases h : isZero b
        · rfl
        · exact absurd h hz
      rw [extendedGCD_succ hz2]
      have hrc : Canon (modRaw a b) := modRaw_canon ha hb hz2
      have hr0 : 0 ≤ toVal (modRaw a b) := modRaw_nonneg ha hb hz2
      have hmaglt : natMag (modRaw a b) < natMag b := modRaw_mag_lt ha hb hz2
      have hrec := extendedGCD_spec f b (modRaw a b) hb hrc (by omega) hb0 hr0
      have hgcanon := extendedGCD_canon f b (modRaw a b) hb hrc
      have hacast := toVal_eq_cast_of_nonneg ha ha0
      have hbcast := toVal_eq_cast_of_nonneg hb hb0
      have hsa : a.is_negative = false := sign_false_of_nonneg ha ha0
      have hsb : b.is_negative = false := sign_false_of_nonneg hb hb0
      have hqval : toVal (divRaw a b) = ((natMag a / natMag b : ℕ) : ℤ) :=
        divRaw_val_nonneg ha hb hz2 hsa hsb
      have hrval : toVal (modRaw a b) = ((natMag a % natMag b : ℕ) : ℤ) := by
        rw [modRaw_val ha hb hz2, hacast, hbcast]
        push_cast
        rfl
      have hrmag : natMag (modRaw a b) = natMag a % natMag b := by
        have := natMag_toVal (modRaw_sign ha hb hz2)
        rw [hrval] at this
        exact_mod_cast this
      constructor
      · show toVal (extendedGCD f b (modRaw a b)).1 = (Nat.gcd (natMag b) (natMag a) : ℕ)
        rw [hrec.1, hrmag]
        rw [Nat.gcd_rec (natMag b) (natMag a)]
      · show toVal a * toVal (extendedGCD f b (modRaw a b)).2.2
            + toVal b * toVal (sub (extendedGCD f b (modRaw a b)).2.1
                (mul (divRaw a b) (extendedGCD f b (modRaw a b)).2.2))
          = toVal (extendedGCD f b (modRaw a b)).1
        rw [sub_val hgcanon.2.1 (mul_canon (divRaw_canon ha hb hz2) hgcanon.2.2)]
        rw [mul_val (divRaw_canon ha hb hz2) hgcanon.2.2]
        have hsub : toVal (modRaw a b) = toVal a - toVal b * toVal (divRaw a b) := by
          rw [hrval, hqval, hacast, hbcast]
          linear_combination divMod_cast_split a b
        linear_combination hrec.2 - toVal (extendedGCD f b (modRaw a b)).2.2 * hsub

theorem modInverse_eq {a m : BigNum} (hm0 : isZero m = false) :
    modInverse a m =
      (if isOne (extendedGCDTop (modRaw a m) m).1 then
        .ok (if (modRaw (extendedGCDTop (modRaw a m) m).2.1 m).is_negative then
              add (modRaw (extendedGCDTop (modRaw a m) m).2.1 m) m
            else modRaw (extendedGCDTop (modRaw a m) m).2.1 m)
      else .error .noInverse) := by
  rw [modInverse, mod_ok hm0]

theorem modInverse_spec {a m : BigNum} (ha : Canon a) (hm : Canon m) (hm2 : 2 ≤ toVal m) :
    (modInverse a m = .error .noInverse ↔
      Nat.gcd (natMag (modRaw a m)) (natMag m) ≠ 1) ∧
    ∀ r, modInverse a m = .ok r → Canon r ∧ modRaw (mul a r) m = ofInt 1 := by
  have hm0 : isZero m = false := isZero_false_of_ge_two hm hm2
  have hamc : Canon (modRaw a m) := modRaw_canon ha hm hm0
  have ham0 : 0 ≤ toVal (modRaw a m) := modRaw_nonneg ha hm hm0
  have hamval : toVal (modRaw a m) = toVal a % toVal m := modRaw_val ha hm hm0
  have hgspec := extendedGCD_spec (natMag m + 1) (modRaw a m) m hamc hm (by omega)
    ham0 (by omega)
  have hgcanon := extendedGCD_canon (natMag m + 1) (modRaw a m) m hamc hm
  have hgval : toVal (extendedGCDTop (modRaw a m) m).1
      = (Nat.gcd (natMag m) (natMag (modRaw a m)) : ℕ) := hgspec.1
  have hbezT : toVal (modRaw a m) * toVal (extendedGCDTop (modRaw a m) m).2.1
      + toVal m * toVal (extendedGCDTop (modRaw a m) m).2.2
      = toVal (extendedGCDTop (modRaw a m) m).1 := hgspec.2
  have hgcanonT : Canon (extendedGCDTop (modRaw a m) m).1 ∧
      Canon (extendedGCDTop (modRaw a m) m).2.1 ∧
      Canon (extendedGCDTop (modRaw a m) m).2.2 := hgcanon
  have hone_iff : isOne (extendedGCDTop (modRaw a m) m).1 = true ↔
      Nat.gcd (natMag (modRaw a m)) (natMag m) = 1 := by
    rw [isOne_iff_val hgcanonT.1, hgval, Nat.gcd_comm]
    constructor
    · intro h
      exact_mod_cast h
    · intro h
      exact_mod_cast h
  constructor
  · constructor
    · intro herr
      intro hgcd
      rw [modInverse_eq hm0, if_pos (hone_iff.mpr hgcd)] at herr
      simp at herr
    · intro hgcd
      rw [modInverse_eq hm0, if_neg]
      intro hone
      exact hgcd (hone_iff.mp hone)
  · intro r hr
    rw [modInverse_eq hm0] at hr
    by_cases hone : isOne (extendedGCDTop (modRaw a m) m).1 = true
    · rw [if_pos hone] at hr
      have hxc : Canon (extendedGCDTop (modRaw a m) m).2.1 := hgcanonT.2.1
      have hr0c : Canon (modRaw (extendedGCDTop (modRaw a m) m).2.1 m) :=
        modRaw_canon hxc hm hm0
      have hr0sign : (modRaw (extendedGCDTop (modRaw a m) m).2.1 m).is_negative = false :=
        modRaw_sign hxc hm hm0
      rw [if_neg (by simp [hr0sign])] at hr
      have hreq : r = modRaw (extendedGCDTop (modRaw a m) m).2.1 m := by
        injection hr with h
        exact h.symm
      subst hreq
      refine ⟨hr0c, ?_⟩
      apply toVal_inj (modRaw_canon (mul_canon ha hr0c) hm hm0) (ofInt_canon 1)
      rw [ofInt_val, modRaw_val (mul_canon ha hr0c) hm hm0, mul_val ha hr0c]
      have hgone : toVal (extendedGCDTop (modRaw a m) m).1 = 1 :=
        (isOne_iff_val hgcanonT.1).mp hone
      have h1 : toVal (modRaw (extendedGCDTop (modRaw a m) m).2.1 m)
          ≡ toVal (extendedGCDTop (modRaw a m) m).2.1 [ZMOD toVal m] := by
        rw [modRaw_val hxc hm hm0]
        exact Int.emod_emod_of_dvd _ dvd_rfl
      have h2 : toVal (modRaw a m) ≡ toVal a [ZMOD toVal m] := by
        rw [hamval]
        exact Int.emod_emod_of_dvd _ dvd_rfl
      have h3 := (h2.symm).mul h1
      have h4 : toVal (modRaw a m) * toVal (extendedGCDTop (modRaw a m) m).2.1
          ≡ 1 [ZMOD toVal m] := by
        have hbez := hbezT
        rw [hgone] at hbez
        show _ % toVal m = 1 % toVal m
        rw [Int.emod_eq_emod_iff_emod_sub_eq_zero]
        apply Int.emod_eq_zero_of_dvd
        refine ⟨-(toVal (extendedGCDTop (modRaw a m) m).2.2), ?_⟩
        linear_combination hbez
      calc toVal a * toVal (modRaw (extendedGCDTop (modRaw a m) m).2.1 m) % toVal m
          = toVal (modRaw a m) * toVal (extendedGCDTop (modRaw a m) m).2.1 % toVal m := h3
        _ = 1 % toVal m := h4
        _ = 1 := Int.emod_eq_of_lt (by norm_num) (by omega)
    · rw [if_neg hone] at hr
      simp at hr

/-! ### `powMod` ignores the sign of the exponent -/

theorem fixup_digits (s : Bool) (ds : List ℕ) :
    (fixup s ds).digits = removeLeadingZeros ds := rfl

theorem divRaw_digits_eq {a1 a2 : BigNum} (b : BigNum) (h : a1.digits = a2.digits) :
    (divRaw a1 b).digits = (divRaw a2 b).digits := by
  by_cases hz1 : isZero a1 = true
  · have hz2 : isZero a2 = true := by
      rw [isZero_iff_digits] at hz1 ⊢
      rw [← h]
      exact hz1
    rw [divRaw, divRaw, if_pos hz1, if_pos hz2]
  · have hz2 : ¬ isZero a2 = true := fun hc =>
      hz1 (by rw [isZero_iff_digits] at hc ⊢; rw [h]; exact hc)
    rw [divRaw, divRaw, if_neg hz1, if_neg hz2]
    have hlt : lt (⟨a1.digits, false⟩ : BigNum) ⟨b.digits, false⟩
        = lt (⟨a2.digits, false⟩ : BigNum) ⟨b.digits, false⟩ := by rw [h]
    by_cases h2 : lt (⟨a1.digits, false⟩ : BigNum) ⟨b.digits, false⟩ = true
    · rw [if_pos h2, if_pos (hlt ▸ h2)]
    · rw [if_neg h2, if_neg (hlt ▸ h2)]
      rw [fixup_digits, fixup_digits]
      simp only [h]

theorem powModLoop_digits : ∀ (f : ℕ) (r bb m e1 e2 : BigNum), e1.digits = e2.digits →
    powModLoop f r bb e1 m = powModLoop f r bb e2 m
  | 0, _, _, _, _, _, _ => rfl
  | f + 1, r, bb, m, e1, e2, h => by
    rw [powModLoop, powModLoop]
    by_cases hz : e1.digits = [0]
    · have hz2 : e2.digits = [0] := by rw [← h]; exact hz
      rw [if_pos (isZero_iff_digits.mpr hz), if_pos (isZero_iff_digits.mpr hz2)]
    · have hz2 : ¬ e2.digits = [0] := by rw [← h]; exact hz
      rw [if_neg (fun hc : isZero e1 = true => hz (isZero_iff_digits.mp hc)),
        if_neg (fun hc : isZero e2 = true => hz2 (isZero_iff_digits.mp hc))]
      show powModLoop f (if e1.digits.headD 0 % 2 = 1 then mulModRaw r bb m else r)
          (mulModRaw bb bb m) (divRaw e1 (ofInt 2)) m
        = powModLoop f (if e2.digits.headD 0 % 2 = 1 then mulModRaw r bb m else r)
          (mulModRaw bb bb m) (divRaw e2 (ofInt 2)) m
      simp only [h]
      exact powModLoop_digits f _ _ m _ _ (divRaw_digits_eq (ofInt 2) h)

theorem natMag_neg (a : BigNum) : natMag (neg a) = natMag a := by
  rw [natMag, natMag, neg_digits]

/-! ### Parsing and rendering -/

theorem fromString_cons (c : Char) (cs : List Char) :
    fromString (c :: cs) = fixup
      (if ((if decide (c = '-') = true then cs else c :: cs).reverse.filter isDigitChar).map
          (fun ch => ch.toNat - 48) = [] then false else decide (c = '-'))
      (if ((if decide (c = '-') = true then cs else c :: cs).reverse.filter isDigitChar).map
          (fun ch => ch.toNat - 48) = [] then [0]
        else ((if decide (c = '-') = true then cs else c :: cs).reverse.filter isDigitChar).map
          (fun ch => ch.toNat - 48)) := rfl

theorem fromString_canon : ∀ s : List Char, Canon (fromString s)
  | [] => by decide
  | c :: cs => by
    rw [fromString_cons]
    set L := ((if decide (c = '-') = true then cs else c :: cs).reverse.filter isDigitChar).map
        (fun ch => ch.toNat - 48) with hL
    have hbL : ∀ d ∈ L, d < 10 := by
      intro d hd
      rcases List.mem_map.mp hd with ⟨ch, hch, hche⟩
      have hmem := List.of_mem_filter hch
      rw [isDigitChar] at hmem
      simp at hmem
      omega
    by_cases hLe : L = []
    · rw [if_pos hLe, if_pos hLe]
      exact fixup_canon _ (by simp) (by simp)
    · rw [if_neg hLe, if_neg hLe]
      exact fixup_canon _ hLe hbL

theorem digitChar_toNat {d : ℕ} (h : d < 10) : (digitChar d).toNat = 48 + d := by
  interval_cases d <;> decide

theorem isDigitChar_digitChar {d : ℕ} (h : d < 10) : isDigitChar (digitChar d) = true := by
  interval_cases d <;> decide

theorem digitChar_ne_dash {d : ℕ} (h : d < 10) : ¬ (digitChar d = '-') := by
  interval_cases d <;> decide

theorem parse_digit_block : ∀ (l : List ℕ), (∀ d ∈ l, d < 10) →
    ((l.map digitChar).filter isDigitChar).map (fun ch => ch.toNat - 48) = l
  | [], _ => rfl
  | d :: t, hb => by
    have hd : d < 10 := hb d (by simp)
    rw [List.map_cons, List.filter_cons, if_pos (by simp [isDigitChar_digitChar hd])]
    rw [List.map_cons]
    rw [parse_digit_block t (fun x hx => hb x (by simp [hx]))]
    rw [digitChar_toNat hd]
    simp

theorem body_reverse_eq (a : BigNum) :
    (a.digits.reverse.map digitChar).reverse = a.digits.map digitChar := by
  rw [← List.map_reverse, List.reverse_reverse]

theorem roundTrip {a : BigNum} (ha : Canon a) : fromString (toString a) = a := by
  have hbd : ∀ d ∈ a.digits, d < 10 := ha.1.2.1
  cases hsa : a.is_negative
  · have htos : toString a = a.digits.reverse.map digitChar := by
      rw [toString, if_neg (by simp [hsa])]
      simp
    cases hrev : a.digits.reverse with
    | nil =>
      exfalso
      exact ha.1.1 (by simpa using congrArg List.reverse hrev)
    | cons y t =>
      have hy10 : y < 10 := hbd y (by
        have : y ∈ a.digits.reverse := by rw [hrev]; simp
        simpa using this)
      rw [htos, hrev, List.map_cons, fromString_cons]
      have hsgn : decide (digitChar y = '-') = false := by
        simp [digitChar_ne_dash hy10]
      rw [hsgn]
      have hbody : (if (false : Bool) = true then t.map digitChar
          else digitChar y :: t.map digitChar) = a.digits.reverse.map digitChar := by
        rw [if_neg (by simp), ← List.map_cons, ← hrev]
      rw [hbody, body_reverse_eq, parse_digit_block a.digits hbd]
      have hne : a.digits ≠ [] := ha.1.1
      rw [if_neg hne, if_neg hne]
      rw [fixup, removeLeadingZeros_of_canon ha.1]
      have hflat : (if a.digits = [0] then false else false) = a.is_negative := by
        rw [hsa]
        split <;> rfl
      cases a with
      | mk d s =>
        simp only at hflat ⊢
        rw [hflat]
  · have hz : a.digits ≠ [0] := fun h => by
      rw [ha.2 h] at hsa
      simp at hsa
    have htos : toString a = '-' :: a.digits.reverse.map digitChar := by
      rw [toString, if_pos]
      · rfl
      · rw [hsa]
        have hzf : isZero a = false := by
          cases hzb : isZero a with
          | false => rfl
          | true => exact absurd (isZero_iff_digits.mp hzb) hz
        rw [hzf]
        rfl
    rw [htos, fromString_cons]
    have hsgn : decide (('-' : Char) = '-') = true := by decide
    rw [hsgn]
    have hbody : (if (true : Bool) = true then a.digits.reverse.map digitChar
        else '-' :: a.digits.reverse.map digitChar) = a.digits.reverse.map digitChar := by
      rw [if_pos rfl]
    rw [hbody, body_reverse_eq, parse_digit_block a.digits hbd]
    have hne : a.digits ≠ [] := ha.1.1
    rw [if_neg hne, if_neg hne]
    rw [fixup, removeLeadingZeros_of_canon ha.1]
    have hflat : (if a.digits = [0] then false else true) = a.is_negative := by
      rw [hsa, if_neg hz]
    cases a with
    | mk d s =>
      simp only at hflat ⊢
      rw [hflat]


/-! ### The claims -/

/-- Reference repeated-multiplication power, written independently of `powMod`
to state the naive comparison of the spec. -/
def naivePow (b : ℤ) : ℕ → ℤ
  | 0 => 1
  | n + 1 => naivePow b n * b

theorem naivePow_eq_pow (b : ℤ) : ∀ n : ℕ, naivePow b n = b ^ n
  | 0 => by rw [naivePow, pow_zero]
  | n + 1 => by rw [naivePow, pow_succ, naivePow_eq_pow b n]

/-- C1 (amended): for canonical operands with a NON-NEGATIVE dividend and a
nonzero divisor, `(a/b)*b + (a%b) = a`.  The original claim, quantified over
every dividend, is refuted by `C1_counterexample`. -/
theorem C1_division_identity {a b : BigNum} (ha : Canon a) (hb : Canon b)
    (ha0 : 0 ≤ toVal a) (hb0 : toVal b ≠ 0) :
    ∃ q r, div a b = Except.ok q ∧ mod a b = Except.ok r ∧
      toVal q * toVal b + toVal r = toVal a := by
  have hbz : isZero b = false := by
    cases h : isZero b
    · rfl
    · exact absurd ((isZero_iff_val hb).mp h) hb0
  refine ⟨divRaw a b, modRaw a b, div_ok hbz, mod_ok hbz, ?_⟩
  rw [modRaw_val ha hb hbz, (divRaw_spec ha hb hbz).2]
  have hsa : a.is_negative = false := sign_false_of_nonneg ha ha0
  have hta : toVal a = (natMag a : ℤ) := (natMag_toVal hsa).symm
  have hcast : ((natMag a : ℤ)) % ((natMag b : ℤ))
      = ((natMag a % natMag b : ℕ) : ℤ) := by push_cast; ring
  cases hsb : b.is_negative
  · have htb : toVal b = (natMag b : ℤ) := (natMag_toVal hsb).symm
    rw [hsa, if_neg (by simp), hta, htb, hcast]
    exact divMod_cast_split a b
  · have htb : toVal b = -(natMag b : ℤ) := toVal_of_neg_true hsb
    rw [hsa, if_pos (by simp), hta, htb, Int.emod_neg, hcast, neg_mul_neg]
    exact divMod_cast_split a b

/-- C1 counterexample: at `a = -5`, `b = 3` the library returns `a/b = -1`
and `a%b = 1`, and `(-1)*3 + 1 = -2 ≠ -5`. -/
theorem C1_counterexample :
    Canon (⟨[5], true⟩ : BigNum) ∧ Canon (⟨[3], false⟩ : BigNum) ∧
    toVal (⟨[3], false⟩ : BigNum) ≠ 0 ∧
    div (⟨[5], true⟩ : BigNum) ⟨[3], false⟩ = Except.ok ⟨[1], true⟩ ∧
    mod (⟨[5], true⟩ : BigNum) ⟨[3], false⟩ = Except.ok ⟨[1], false⟩ ∧
    toVal (⟨[1], true⟩ : BigNum) * toVal (⟨[3], false⟩ : BigNum)
        + toVal (⟨[1], false⟩ : BigNum) ≠ toVal (⟨[5], true⟩ : BigNum) := by
  refine ⟨by decide, by decide, by decide, ?_, ?_, by decide⟩
  · simp [div, divRaw, divFoldStep, divStepLoop, add, sub, addAux, subAux, addMag,
      carryDigits, subMag, mul, mulBuf, mulStep, fixup, removeLeadingZeros, stripMS,
      lt, ltAux, ltDigitsMS, ge, neg, isZero, ofInt, natDigits]
  · simp [mod, modRaw, div, divRaw, divFoldStep, divStepLoop, add, sub, addAux, subAux,
      addMag, carryDigits, subMag, mul, mulBuf, mulStep, fixup, removeLeadingZeros,
      stripMS, lt, ltAux, ltDigitsMS, ge, neg, isZero, ofInt, natDigits]

/-- C1 witness: the amended identity at `a = 7`, `b = -3`. -/
theorem C1_witness :
    Canon (⟨[7], false⟩ : BigNum) ∧ Canon (⟨[3], true⟩ : BigNum) ∧
    0 ≤ toVal (⟨[7], false⟩ : BigNum) ∧ toVal (⟨[3], true⟩ : BigNum) ≠ 0 ∧
    (∃ q r, div (⟨[7], false⟩ : BigNum) ⟨[3], true⟩ = Except.ok q ∧
      mod (⟨[7], false⟩ : BigNum) ⟨[3], true⟩ = Except.ok r ∧
      toVal q * toVal (⟨[3], true⟩ : BigNum) + toVal r
        = toVal (⟨[7], false⟩ : BigNum)) :=
  ⟨by decide, by decide, by decide, by decide,
    C1_division_identity (by decide) (by decide) (by decide) (by decide)⟩

/-- C2 (amended): for canonical `a` and canonical `m` with `toVal m ≥ 2`,
`modInverse` fails with `NoInverse` exactly when `gcd(a mod m, m) ≠ 1`, and
on success the result `r` satisfies `(a * r) mod m = 1`.  The original claim,
quantified over every nonzero `m`, is refuted by `C2_counterexample`. -/
theorem C2_modInverse_correct {a m : BigNum} (ha : Canon a) (hm : Canon m)
    (hm2 : 2 ≤ toVal m) :
    (modInverse a m = Except.error Err.noInverse ↔
      Nat.gcd (natMag (modRaw a m)) (natMag m) ≠ 1) ∧
    ∀ r, modInverse a m = Except.ok r → mulMod a r m = Except.ok (ofInt 1) := by
  have hm0 : isZero m = false := isZero_false_of_ge_two hm hm2
  have hspec := modInverse_spec ha hm hm2
  refine ⟨hspec.1, ?_⟩
  intro r hr
  show mod (mul a r) m = Except.ok (ofInt 1)
  rw [mod_ok hm0, (hspec.2 r hr).2]

/-- C2 counterexample: at `a = 5`, `m = 1` the call succeeds with result `0`,
but `(5 * 0) mod 1 = 0 ≠ 1`. -/
theorem C2_counterexample :
    toVal (⟨[1], false⟩ : BigNum) ≠ 0 ∧
    modInverse (⟨[5], false⟩ : BigNum) ⟨[1], false⟩ = Except.ok ⟨[0], false⟩ ∧
    mulMod (⟨[5], false⟩ : BigNum) (⟨[0], false⟩ : BigNum) ⟨[1], false⟩
      = Except.ok ⟨[0], false⟩ ∧
    toVal (⟨[0], false⟩ : BigNum) ≠ 1 := by
  refine ⟨by decide, ?_, ?_, by decide⟩
  · simp [modInverse, extendedGCDTop, extendedGCD, natMag, digitsVal, isOne,
      mod, modRaw, div, divRaw, divFoldStep, divStepLoop, add, sub, addAux, subAux,
      addMag, carryDigits, subMag, mul, mulBuf, mulStep, fixup, removeLeadingZeros,
      stripMS, lt, ltAux, ltDigitsMS, ge, neg, isZero, ofInt, natDigits]
  · simp [mulMod, mod, modRaw, div, divRaw, divFoldStep, divStepLoop, add, sub, addAux,
      subAux, addMag, carryDigits, subMag, mul, mulBuf, mulStep, fixup,
      removeLeadingZeros, stripMS, lt, ltAux, ltDigitsMS, ge, neg, isZero, ofInt,
      natDigits]

/-- C2 witness: the amended statement at `a = 3`, `m = 7`. -/
theorem C2_witness :
    Canon (⟨[3], false⟩ : BigNum) ∧ Canon (⟨[7], false⟩ : BigNum) ∧
    2 ≤ toVal (⟨[7], false⟩ : BigNum) ∧
    ((modInverse (⟨[3], false⟩ : BigNum) ⟨[7], false⟩ = Except.error Err.noInverse ↔
      Nat.gcd (natMag (modRaw (⟨[3], false⟩ : BigNum) ⟨[7], false⟩))
        (natMag (⟨[7], false⟩ : BigNum)) ≠ 1) ∧
    ∀ r, modInverse (⟨[3], false⟩ : BigNum) ⟨[7], false⟩ = Except.ok r →
      mulMod (⟨[3], false⟩ : BigNum) r ⟨[7], false⟩ = Except.ok (ofInt 1)) :=
  ⟨by decide, by decide, by decide,
    C2_modInverse_correct (by decide) (by decide) (by decide)⟩

/-- C3: for canonical operands with a non-negative exponent and a positive
modulus, `powMod` agrees with naive repeated multiplication reduced mod `m`,
and a modulus of one gives `0`. -/
theorem C3_powMod_naive {a e m : BigNum} (ha : Canon a) (he : Canon e) (hm : Canon m)
    (he0 : 0 ≤ toVal e) (hm1 : 0 < toVal m) :
    (toVal m = 1 → powMod a e m = Except.ok (ofInt 0)) ∧
    ∃ r, powMod a e m = Except.ok r ∧
      toVal r = naivePow (toVal a) (toVal e).toNat % toVal m := by
  have hexp : (toVal e).toNat = natMag e := by
    rw [toVal_eq_cast_of_nonneg he he0]
    omega
  constructor
  · intro h1
    rw [powMod, if_pos (by simp [(isOne_iff_val hm).mpr h1])]
  · by_cases h1 : toVal m = 1
    · refine ⟨ofInt 0, ?_, ?_⟩
      · rw [powMod, if_pos (by simp [(isOne_iff_val hm).mpr h1])]
      · rw [ofInt_val, h1, Int.emod_one]
    · have hm2 : 2 ≤ toVal m := by omega
      obtain ⟨r, hr, hrc, hrv⟩ := powMod_spec ha he hm hm2
      exact ⟨r, hr, by rw [hrv, naivePow_eq_pow, hexp]⟩

/-- C3 witness: `2 ^ 3 mod 5`. -/
theorem C3_witness :
    Canon (⟨[2], false⟩ : BigNum) ∧ Canon (⟨[3], false⟩ : BigNum) ∧
    Canon (⟨[5], false⟩ : BigNum) ∧ 0 ≤ toVal (⟨[3], false⟩ : BigNum) ∧
    0 < toVal (⟨[5], false⟩ : BigNum) ∧
    ((toVal (⟨[5], false⟩ : BigNum) = 1 →
      powMod (⟨[2], false⟩ : BigNum) ⟨[3], false⟩ ⟨[5], false⟩ = Except.ok (ofInt 0)) ∧
    ∃ r, powMod (⟨[2], false⟩ : BigNum) ⟨[3], false⟩ ⟨[5], false⟩ = Except.ok r ∧
      toVal r = naivePow (toVal (⟨[2], false⟩ : BigNum))
        (toVal (⟨[3], false⟩ : BigNum)).toNat % toVal (⟨[5], false⟩ : BigNum)) :=
  ⟨by decide, by decide, by decide, by decide, by decide,
    C3_powMod_naive (by decide) (by decide) (by decide) (by decide) (by decide)⟩

/-- C4: for canonical operands with a nonzero divisor, the remainder is
non-negative and smaller than the divisor's magnitude. -/
theorem C4_mod_range {a b : BigNum} (ha : Canon a) (hb : Canon b)
    (hb0 : toVal b ≠ 0) :
    ∃ r, mod a b = Except.ok r ∧ 0 ≤ toVal r ∧ toVal r < |toVal b| := by
  have hbz : isZero b = false := by
    cases h : isZero b
    · rfl
    · exact absurd ((isZero_iff_val hb).mp h) hb0
  exact ⟨modRaw a b, mod_ok hbz, modRaw_nonneg ha hb hbz, modRaw_lt_abs ha hb hbz⟩

/-- C4 witness: `(-5) mod (-3)`. -/
theorem C4_witness :
    Canon (⟨[5], true⟩ : BigNum) ∧ Canon (⟨[3], true⟩ : BigNum) ∧
    toVal (⟨[3], true⟩ : BigNum) ≠ 0 ∧
    (∃ r, mod (⟨[5], true⟩ : BigNum) ⟨[3], true⟩ = Except.ok r ∧
      0 ≤ toVal r ∧ toVal r < |toVal (⟨[3], true⟩ : BigNum)|) :=
  ⟨by decide, by decide, by decide, C4_mod_range (by decide) (by decide) (by decide)⟩

/-- C5 (amended): for canonical NON-NEGATIVE operands, `extendedGCD` returns
a triple satisfying the Bezout identity.  The original claim, quantified over
all operands, is refuted by `C5_counterexample`. -/
theorem C5_bezout {a b : BigNum} (ha : Canon a) (hb : Canon b)
    (ha0 : 0 ≤ toVal a) (hb0 : 0 ≤ toVal b) :
    toVal a * toVal (extendedGCDTop a b).2.1
      + toVal b * toVal (extendedGCDTop a b).2.2 = toVal (extendedGCDTop a b).1 :=
  (extendedGCD_spec (natMag b + 1) a b ha hb (by omega) ha0 hb0).2

/-- C5 counterexample: `extendedGCD(-5, 3)` returns `(1, 1, 1)`, and
`(-5)*1 + 3*1 = -2 ≠ 1`. -/
theorem C5_counterexample :
    extendedGCDTop (⟨[5], true⟩ : BigNum) ⟨[3], false⟩
      = (⟨[1], false⟩, ⟨[1], false⟩, ⟨[1], false⟩) ∧
    toVal (⟨[5], true⟩ : BigNum) * toVal (⟨[1], false⟩ : BigNum)
        + toVal (⟨[3], false⟩ : BigNum) * toVal (⟨[1], false⟩ : BigNum)
      ≠ toVal (⟨[1], false⟩ : BigNum) := by
  refine ⟨?_, by decide⟩
  simp [extendedGCDTop, extendedGCD, natMag, digitsVal, isOne, mod, modRaw, div,
    divRaw, divFoldStep, divStepLoop, add, sub, addAux, subAux, addMag, carryDigits,
    subMag, mul, mulBuf, mulStep, fixup, removeLeadingZeros, stripMS, lt, ltAux,
    ltDigitsMS, ge, neg, isZero, ofInt, natDigits]

/-- C5 witness: the amended Bezout identity at `a = 12`, `b = 8`. -/
theorem C5_witness :
    Canon (⟨[2, 1], false⟩ : BigNum) ∧ Canon (⟨[8], false⟩ : BigNum) ∧
    0 ≤ toVal (⟨[2, 1], false⟩ : BigNum) ∧ 0 ≤ toVal (⟨[8], false⟩ : BigNum) ∧
    toVal (⟨[2, 1], false⟩ : BigNum)
        * toVal (extendedGCDTop (⟨[2, 1], false⟩ : BigNum) ⟨[8], false⟩).2.1
      + toVal (⟨[8], false⟩ : BigNum)
        * toVal (extendedGCDTop (⟨[2, 1], false⟩ : BigNum) ⟨[8], false⟩).2.2
      = toVal (extendedGCDTop (⟨[2, 1], false⟩ : BigNum) ⟨[8], false⟩).1 :=
  ⟨by decide, by decide, by decide, by decide,
    C5_bezout (by decide) (by decide) (by decide) (by decide)⟩

/-- C6: every division-dependent operation on a canonical zero modulus fails
with `DivisionByZero`. -/
theorem C6_division_by_zero (a b : BigNum) {m : BigNum} (hm : Canon m)
    (hm0 : toVal m = 0) :
    div a m = Except.error Err.divisionByZero ∧
    mod a m = Except.error Err.divisionByZero ∧
    addMod a b m = Except.error Err.divisionByZero ∧
    mulMod a b m = Except.error Err.divisionByZero ∧
    powMod a b m = Except.error Err.divisionByZero ∧
    modInverse a m = Except.error Err.divisionByZero := by
  have hz : isZero m = true := (isZero_iff_val hm).mpr hm0
  have hone : isOne m = false := by
    rw [isOne, isZero_iff_digits.mp hz]
    simp
  refine ⟨div_err hz, mod_err hz, ?_, ?_, ?_, ?_⟩
  · show mod (add a b) m = _
    exact mod_err hz
  · show mod (mul a b) m = _
    exact mod_err hz
  · rw [powMod, if_neg (by simp [hone]), mod_err hz]
  · rw [modInverse, mod_err hz]

/-- C6 witness: every operation with modulus `0`. -/
theorem C6_witness :
    Canon (⟨[0], false⟩ : BigNum) ∧ toVal (⟨[0], false⟩ : BigNum) = 0 ∧
    (div (⟨[7], false⟩ : BigNum) ⟨[0], false⟩ = Except.error Err.divisionByZero ∧
    mod (⟨[7], false⟩ : BigNum) ⟨[0], false⟩ = Except.error Err.divisionByZero ∧
    addMod (⟨[7], false⟩ : BigNum) ⟨[2], true⟩ ⟨[0], false⟩
      = Except.error Err.divisionByZero ∧
    mulMod (⟨[7], false⟩ : BigNum) ⟨[2], true⟩ ⟨[0], false⟩
      = Except.error Err.divisionByZero ∧
    powMod (⟨[7], false⟩ : BigNum) ⟨[2], true⟩ ⟨[0], false⟩
      = Except.error Err.divisionByZero ∧
    modInverse (⟨[7], false⟩ : BigNum) ⟨[0], false⟩
      = Except.error Err.divisionByZero) :=
  ⟨by decide, by decide,
    C6_division_by_zero ⟨[7], false⟩ ⟨[2], true⟩ (by decide) (by decide)⟩

/-- C7: rendering a canonical value to its decimal string and parsing it back
yields the value unchanged. -/
theorem C7_round_trip {a : BigNum} (ha : Canon a) : fromString (toString a) = a :=
  roundTrip ha

/-- C7 witness: the round trip at `-123`. -/
theorem C7_witness :
    Canon (⟨[3, 2, 1], true⟩ : BigNum) ∧
    fromString (toString (⟨[3, 2, 1], true⟩ : BigNum)) = ⟨[3, 2, 1], true⟩ :=
  ⟨by decide, C7_round_trip (by decide)⟩

/-- C8: construction and every arithmetic operation yield canonical results
from canonical inputs. -/
theorem C8_canonical_closure {a b m : BigNum} (ha : Canon a) (hb : Canon b)
    (hm : Canon m) :
    (∀ s : List Char, Canon (fromString s)) ∧ (∀ n : ℤ, Canon (ofInt n)) ∧
    Canon (add a b) ∧ Canon (sub a b) ∧ Canon (neg a) ∧ Canon (mul a b) ∧
    (∀ q, div a b = Except.ok q → Canon q) ∧
    (∀ r, mod a b = Except.ok r → Canon r) ∧
    (∀ r, addMod a b m = Except.ok r → Canon r) ∧
    (∀ r, mulMod a b m = Except.ok r → Canon r) ∧
    (∀ r, powMod a b m = Except.ok r → Canon r) ∧
    (∀ r, modInverse a m = Except.ok r → Canon r) := by
  have hdiv : ∀ (x y : BigNum), Canon x → Canon y →
      ∀ q, div x y = Except.ok q → Canon q := by
    intro x y hx hy q hq
    cases hz : isZero y
    · rw [div_ok hz] at hq
      injection hq with h
      exact h ▸ divRaw_canon hx hy hz
    · rw [div_err hz] at hq
      exact absurd hq (by simp)
  have hmod : ∀ (x y : BigNum), Canon x → Canon y →
      ∀ r, mod x y = Except.ok r → Canon r := by
    intro x y hx hy r hr
    cases hz : isZero y
    · rw [mod_ok hz] at hr
      injection hr with h
      exact h ▸ modRaw_canon hx hy hz
    · rw [mod_err hz] at hr
      exact absurd hr (by simp)
  refine ⟨fromString_canon, ofInt_canon, add_canon ha hb, sub_canon ha hb,
    neg_canon ha, mul_canon ha hb, hdiv a b ha hb, hmod a b ha hb,
    hmod (add a b) m (add_canon ha hb) hm, hmod (mul a b) m (mul_canon ha hb) hm,
    ?_, ?_⟩
  · intro r hr
    rw [powMod] at hr
    by_cases hone : isOne m = true
    · rw [if_pos (by simp [hone])] at hr
      injection hr with h
      exact h ▸ ofInt_canon 0
    · rw [if_neg (by simp [hone])] at hr
      cases hz : isZero m
      · rw [mod_ok hz] at hr
        simp only [] at hr
        injection hr with h
        exact h ▸ powModLoop_canon _ _ _ _ _ (ofInt_canon 1)
          (modRaw_canon ha hm hz) hb hm hz
      · rw [mod_err hz] at hr
        exact absurd hr (by simp)
  · intro r hr
    cases hz : isZero m
    · rw [modInverse_eq hz] at hr
      have hamc : Canon (modRaw a m) := modRaw_canon ha hm hz
      have hgc := extendedGCD_canon (natMag m + 1) (modRaw a m) m hamc hm
      have hxc : Canon (extendedGCDTop (modRaw a m) m).2.1 := hgc.2.1
      by_cases hone : isOne (extendedGCDTop (modRaw a m) m).1 = true
      · rw [if_pos hone] at hr
        by_cases hneg : (modRaw (extendedGCDTop (modRaw a m) m).2.1 m).is_negative
            = true
        · rw [if_pos hneg] at hr
          injection hr with h
          exact h ▸ add_canon (modRaw_canon hxc hm hz) hm
        · rw [if_neg hneg] at hr
          injection hr with h
          exact h ▸ modRaw_canon hxc hm hz
      · rw [if_neg hone] at hr
        exact absurd hr (by simp)
    · rw [modInverse, mod_err hz] at hr
      exact absurd hr (by simp)

/-- C8 witness: the closure statement at `a = 7`, `b = -2`, `m = 5`. -/
theorem C8_witness :
    Canon (⟨[7], false⟩ : BigNum) ∧ Canon (⟨[2], true⟩ : BigNum) ∧
    Canon (⟨[5], false⟩ : BigNum) ∧
    ((∀ s : List Char, Canon (fromString s)) ∧ (∀ n : ℤ, Canon (ofInt n)) ∧
    Canon (add ⟨[7], false⟩ ⟨[2], true⟩) ∧ Canon (sub ⟨[7], false⟩ ⟨[2], true⟩) ∧
    Canon (neg ⟨[7], false⟩) ∧ Canon (mul ⟨[7], false⟩ ⟨[2], true⟩) ∧
    (∀ q, div (⟨[7], false⟩ : BigNum) ⟨[2], true⟩ = Except.ok q → Canon q) ∧
    (∀ r, mod (⟨[7], false⟩ : BigNum) ⟨[2], true⟩ = Except.ok r → Canon r) ∧
    (∀ r, addMod (⟨[7], false⟩ : BigNum) ⟨[2], true⟩ ⟨[5], false⟩ = Except.ok r →
      Canon r) ∧
    (∀ r, mulMod (⟨[7], false⟩ : BigNum) ⟨[2], true⟩ ⟨[5], false⟩ = Except.ok r →
      Canon r) ∧
    (∀ r, powMod (⟨[7], false⟩ : BigNum) ⟨[2], true⟩ ⟨[5], false⟩ = Except.ok r →
      Canon r) ∧
    (∀ r, modInverse (⟨[7], false⟩ : BigNum) ⟨[5], false⟩ = Except.ok r → Canon r)) :=
  ⟨by decide, by decide, by decide,
    C8_canonical_closure (by decide) (by decide) (by decide)⟩

/-- C9: addition and multiplication of canonical values are commutative. -/
theorem C9_commutativity {a b : BigNum} (ha : Canon a) (hb : Canon b) :
    add a b = add b a ∧ mul a b = mul b a := by
  constructor
  · apply toVal_inj (add_canon ha hb) (add_canon hb ha)
    rw [add_val ha hb, add_val hb ha]
    ring
  · apply toVal_inj (mul_canon ha hb) (mul_canon hb ha)
    rw [mul_val ha hb, mul_val hb ha]
    ring

/-- C9 witness: commutativity at `a = -7`, `b = 19`. -/
theorem C9_witness :
    Canon (⟨[7], true⟩ : BigNum) ∧ Canon (⟨[9, 1], false⟩ : BigNum) ∧
    (add (⟨[7], true⟩ : BigNum) ⟨[9, 1], false⟩
        = add (⟨[9, 1], false⟩ : BigNum) ⟨[7], true⟩ ∧
      mul (⟨[7], true⟩ : BigNum) ⟨[9, 1], false⟩
        = mul (⟨[9, 1], false⟩ : BigNum) ⟨[7], true⟩) :=
  ⟨by decide, by decide, C9_commutativity (by decide) (by decide)⟩

/-- C10: with a canonical modulus of value at least one, `powMod` at a
canonical negative exponent returns a value (terminates normally) and equals
`powMod` at the negated exponent: the exponent's sign is ignored. -/
theorem C10_powMod_exponent_sign {a e m : BigNum} (he : Canon e) (hm : Canon m)
    (hm1 : 1 ≤ toVal m) (he0 : toVal e < 0) :
    (∃ r, powMod a e m = Except.ok r) ∧ powMod a e m = powMod a (neg e) m := by
  have hz : isZero m = false := by
    cases h : isZero m
    · rfl
    · have := (isZero_iff_val hm).mp h
      omega
  constructor
  · by_cases hone : isOne m = true
    · exact ⟨ofInt 0, by rw [powMod, if_pos (by simp [hone])]⟩
    · refine ⟨powModLoop (natMag e + 1) (ofInt 1) (modRaw a m) e m, ?_⟩
      rw [powMod, if_neg (by simp [hone]), mod_ok hz]
  · by_cases hone : isOne m = true
    · rw [powMod, powMod, if_pos (by simp [hone]), if_pos (by simp [hone])]
    · rw [powMod, powMod, if_neg (by simp [hone]), if_neg (by simp [hone]), mod_ok hz]
      show Except.ok (powModLoop (natMag e + 1) (ofInt 1) (modRaw a m) e m)
        = Except.ok (powModLoop (natMag (neg e) + 1) (ofInt 1) (modRaw a m) (neg e) m)
      rw [natMag_neg]
      exact congrArg Except.ok
        (powModLoop_digits (natMag e + 1) (ofInt 1) (modRaw a m) m e (neg e)
          (neg_digits e).symm)

/-- C10 witness: `powMod 5 (-3) 7 = powMod 5 3 7`. -/
theorem C10_witness :
    Canon (⟨[3], true⟩ : BigNum) ∧ Canon (⟨[7], false⟩ : BigNum) ∧
    1 ≤ toVal (⟨[7], false⟩ : BigNum) ∧ toVal (⟨[3], true⟩ : BigNum) < 0 ∧
    ((∃ r, powMod (⟨[5], false⟩ : BigNum) ⟨[3], true⟩ ⟨[7], false⟩ = Except.ok r) ∧
      powMod (⟨[5], false⟩ : BigNum) ⟨[3], true⟩ ⟨[7], false⟩
        = powMod (⟨[5], false⟩ : BigNum) (neg ⟨[3], true⟩) ⟨[7], false⟩) :=
  ⟨by decide, by decide, by decide, by decide,
    C10_powMod_exponent_sign (by decide) (by decide) (by decide) (by decide)⟩

end BigNumSpec
